import Mathlib

/-!
Verification of the algo-visualizer step-generation and state-transition engine.

The definitions below are shallow embeddings of the TypeScript source:
array sorting step generators (array visualizer, two variants), the hash-table
bucket operations (hash-visualizer.tsx), the doubly-linked-list mutations
(linked-list-visualizer.tsx), the binary-search-tree insert and delete
(binary tree visualizer), and the playback transport (stepVisualization plus
the shared controls component).  JavaScript numbers that hold array values are
modelled as Int, character codes as Nat, JS `null` links as Option, and code
paths that throw as Option results.
-/

namespace AlgoViz

/-- Status tags carried by array items during sorting animation. -/
inductive Status where
  | default
  | comparing
  | swapping
  | sorted
  deriving DecidableEq, Repr

/-- An array element as held by the array visualizer: value plus status. -/
structure Item where
  value : Int
  status : Status
  deriving DecidableEq, Repr

/-- JS `l[j].status = s` (in range whenever the source executes it; out of
range it is modelled as the identity). -/
def setSt (l : List Item) (j : Nat) (s : Status) : List Item :=
  match l[j]? with
  | some it => l.set j ⟨it.value, s⟩
  | none => l

/-- State of the part_005 sort step generators.  JS objects are heap
references: the first recorded snapshot (`steps.push([...copy])`) aliases the
live item objects, so we track, for each slot of `copy`, whether it still
holds one of the original item objects (`orig`), and the current statuses of
those originals (`origStatus`): an in-place status write to a slot that still
holds original `o` is also visible through the aliased first snapshot.  All
later snapshots (`steps.push(copy.map(item => ({...item})))`) are by-value
copies collected in `snaps`. -/
structure SortState where
  copy : List Item
  orig : List (Option Nat)
  origStatus : List Status
  snaps : List (List Item)
  deriving DecidableEq, Repr

/-- In-place status write `copy[j].status = s`, also recorded against the
aliased original object when slot `j` still holds one. -/
def SortState.mark (st : SortState) (j : Nat) (s : Status) : SortState :=
  { st with
    copy := setSt st.copy j s
    origStatus :=
      match st.orig[j]? with
      | some (some o) => st.origStatus.set o s
      | _ => st.origStatus }

/-- Record a by-value snapshot of `copy` (JS `steps.push(copy.map(item => ({...item})))`). -/
def SortState.push (st : SortState) : SortState :=
  { st with snaps := st.snaps ++ [st.copy] }

/-- JS `temp = {...copy[j]}; copy[j] = {...copy[k]}; copy[k] = temp`.  Both
slots end up holding fresh clones, so they stop aliasing original objects. -/
def SortState.swapAt (st : SortState) (j k : Nat) : SortState :=
  match st.copy[j]?, st.copy[k]? with
  | some a, some b =>
    { st with
      copy := (st.copy.set j b).set k a
      orig := (st.orig.set j none).set k none }
  | _, _ => st

/-- Body of the inner loop of part_005 `bubbleSort` at index `j`: mark the
compared pair, snapshot, swap (with two more snapshots) when out of order,
then reset the pair's statuses. -/
def bubbleBody (st : SortState) (j : Nat) : SortState :=
  let st1 := ((st.mark j .comparing).mark (j+1) .comparing).push
  let st2 :=
    match st1.copy[j]?, st1.copy[j+1]? with
    | some a, some b =>
      if a.value > b.value then
        ((((st1.mark j .swapping).mark (j+1) .swapping).push).swapAt j (j+1)).push
      else st1
    | _, _ => st1
  (st2.mark j .default).mark (j+1) .default

/-- Pass `i` of part_005 `bubbleSort`: inner loop for `j < n - i - 1`, then
mark slot `n - i - 1` sorted and snapshot. -/
def bubbleOuterBody (n : Nat) (st : SortState) (i : Nat) : SortState :=
  let st1 := (List.range (n - i - 1)).foldl bubbleBody st
  (st1.mark (n - i - 1) .sorted).push

/-- Initial generator state: `copy` is the input with all statuses default;
every slot still holds its original object. -/
def initSortState (input : List Int) : SortState :=
  { copy := input.map (fun v => ⟨v, .default⟩)
    orig := (List.range input.length).map some
    origStatus := List.replicate input.length .default
    snaps := [] }

/-- The part_005 `bubbleSort` step generator.  The returned list is the step
log as observable once generation has completed: its first element is the
aliased first snapshot rendered through the final statuses of the original
objects, the rest are the by-value snapshots. -/
def bubbleSortSteps (input : List Int) : List (List Item) :=
  let n := input.length
  let st1 := (List.range n).foldl (bubbleOuterBody n) (initSortState input)
  let st2 := ((List.range n).foldl (fun st i => st.mark i .sorted) st1).push
  (List.zipWith Item.mk input st2.origStatus) :: st2.snaps

/-- Body of the inner loop of part_005 `selectionSort` at index `j`, carrying
the running `minIndex` for pass `i`. -/
def selBody (i : Nat) (p : SortState × Nat) (j : Nat) : SortState × Nat :=
  let st1 := (p.1.mark j .comparing).push
  match st1.copy[j]?, st1.copy[p.2]? with
  | some cj, some cm =>
    if cj.value < cm.value then
      let st2 := if p.2 ≠ i then st1.mark p.2 .default else st1
      (st2.push, j)
    else ((st1.mark j .default).push, p.2)
  | _, _ => (st1.push, p.2)

/-- Pass `i` of part_005 `selectionSort`: scan `j ∈ [i+1, n)` for the minimum,
swap it into slot `i` when it moved, then mark slot `i` sorted. -/
def selOuterBody (n : Nat) (st : SortState) (i : Nat) : SortState :=
  let st1 := (st.mark i .comparing).push
  let q := (List.range' (i+1) (n - i - 1)).foldl (selBody i) (st1, i)
  let st2 := q.1
  let mi := q.2
  let st3 :=
    if mi ≠ i then
      ((((st2.mark i .swapping).mark mi .swapping).push).swapAt i mi).push
    else st2
  let st4 := st3.mark i .sorted
  let st5 := if mi ≠ i then st4.mark mi .default else st4
  st5.push

/-- The part_005 `selectionSort` step generator.  Its final statement
`copy[n - 1].status = 'sorted'` reads `copy[-1]` on an empty array, which is
`undefined` in JS, so the assignment throws a TypeError: the embedding
returns `none` in that case and `some` of the step log otherwise. -/
def selectionSortSteps (input : List Int) : Option (List (List Item)) :=
  let n := input.length
  let st1 := (List.range (n - 1)).foldl (selOuterBody n) (initSortState input)
  match st1.copy[n - 1]? with
  | none => none
  | some _ =>
    let st2 := (st1.mark (n - 1) .sorted).push
    some ((List.zipWith Item.mk input st2.origStatus) :: st2.snaps)

/-- Body of the inner loop of the part_002 `bubbleSort` variant: it resets the
pair to default unless already sorted, compares, swaps with snapshots, then
resolves slot `j+1` to sorted exactly at the end of the pass. -/
def bubbleBody2 (n i : Nat) (st : SortState) (j : Nat) : SortState :=
  let stA :=
    match st.copy[j]? with
    | some it => if it.status ≠ .sorted then st.mark j .default else st
    | none => st
  let stB :=
    match stA.copy[j+1]? with
    | some it => if it.status ≠ .sorted then stA.mark (j+1) .default else stA
    | none => stA
  let st1 := ((stB.mark j .comparing).mark (j+1) .comparing).push
  let st2 :=
    match st1.copy[j]?, st1.copy[j+1]? with
    | some a, some b =>
      if a.value > b.value then
        ((((st1.mark j .swapping).mark (j+1) .swapping).push).swapAt j (j+1)).push
      else st1
    | _, _ => st1
  let st3 := st2.mark j .default
  if j + 1 = n - i - 1 then st3.mark (j+1) .sorted else st3.mark (j+1) .default

/-- The part_002 `bubbleSort` variant.  Every snapshot, including the first,
is taken with `JSON.parse(JSON.stringify(copy))`, a genuine deep copy, so no
slot aliases an original object (`orig` is all `none`). -/
def bubbleSort2Steps (input : List Int) : List (List Item) :=
  let n := input.length
  let st0 : SortState :=
    { copy := input.map (fun v => ⟨v, .default⟩)
      orig := List.replicate n none
      origStatus := List.replicate n .default
      snaps := [input.map (fun v => ⟨v, .default⟩)] }
  let st1 := (List.range n).foldl
    (fun st i => (List.range (n - i - 1)).foldl (bubbleBody2 n i) st) st0
  let st2 := ((List.range n).foldl (fun st i => st.mark i .sorted) st1).push
  st2.snaps

/-! Pure value-level counterparts used to state and prove sortedness of the
final snapshot.  These are projections of the embeddings above obtained by
forgetting statuses and snapshots. -/

/-- Value-level compare-and-swap of adjacent slots `j`, `j+1`. -/
def cmpSwap (l : List Int) (j : Nat) : List Int :=
  match l[j]?, l[j+1]? with
  | some a, some b => if a > b then (l.set j b).set (j+1) a else l
  | _, _ => l

/-- Value-level bubble pass: compare-and-swap at `j = 0, …, m-1`. -/
def bubblePassVals (l : List Int) (m : Nat) : List Int :=
  (List.range m).foldl cmpSwap l

/-- Value-level result of the full part_005 bubble sort. -/
def bubbleVals (l : List Int) : List Int :=
  (List.range l.length).foldl (fun acc i => bubblePassVals acc (l.length - i - 1)) l

/-- Structural single bubble pass: the larger of each adjacent pair is carried
rightward. -/
def onePass : List Int → List Int
  | [] => []
  | [a] => [a]
  | a :: b :: t => if a > b then b :: onePass (a :: t) else a :: onePass (b :: t)

/-- Recursion shape of the shrinking passes: pass over the first `k` slots,
then continue with bound `k - 1`. -/
def bubbleGo : Nat → List Int → List Int
  | 0, acc => acc
  | k+1, acc => bubbleGo k (bubblePassVals acc k)

/-- Value-level selection of the running minimum index. -/
def selMin (l : List Int) (mi j : Nat) : Nat :=
  match l[j]?, l[mi]? with
  | some a, some b => if a < b then j else mi
  | _, _ => mi

/-- Value-level swap of two slots. -/
def swapIdx (l : List Int) (i k : Nat) : List Int :=
  match l[i]?, l[k]? with
  | some a, some b => (l.set i b).set k a
  | _, _ => l

/-- Value-level pass `i` of the part_005 selection sort. -/
def selPass (n : Nat) (l : List Int) (i : Nat) : List Int :=
  let mi := (List.range' (i+1) (n - i - 1)).foldl (selMin l) i
  if mi ≠ i then swapIdx l i mi else l

/-- Value-level result of the full part_005 selection sort. -/
def selVals (l : List Int) : List Int :=
  (List.range (l.length - 1)).foldl (selPass l.length) l

/-- Status list of length `n` described pointwise by `f`. -/
def stsPat (n : Nat) (f : Nat → Status) : List Status :=
  (List.range n).map f

/-- Statuses of the selection-sort state at the boundary of outer pass `i`:
slots before `i` are already sorted, the rest are default. -/
def selStsOuter (i : Nat) (p : Nat) : Status :=
  if p < i then .sorted else .default

/-- Statuses of the selection-sort state between inner iterations of pass `i`
with running minimum index `mi`: slot `i` and the running minimum stay
comparing, settled slots stay sorted, everything else is default. -/
def selStsInner (i mi : Nat) (p : Nat) : Status :=
  if p < i then .sorted else if p = i ∨ p = mi then .comparing else .default

/-! Hash table (hash-visualizer.tsx).  Keys are strings, modelled as their
lists of character codes; values are the JS union string | number | boolean |
null.  Entry objects are shared between the `entries` registry and the
`buckets` state in JS; statuses are rendered from the bucket side, so the
embedding keeps `entries` as the key/value registry used for duplicate checks
and removal, and statuses on bucket entries. -/

/-- Hash-entry status tags. -/
inductive HStatus where
  | default
  | active
  | collision
  | processing
  | deleted
  deriving DecidableEq, Repr

/-- JS value payload of a hash entry (string | number | boolean | null). -/
inductive HVal where
  | str (s : List Nat)
  | num (n : Int)
  | bool (b : Bool)
  | null
  deriving DecidableEq, Repr

/-- One bucket entry: key (char codes), value, status. -/
structure HashEntry where
  key : List Nat
  value : HVal
  status : HStatus
  deriving DecidableEq, Repr

/-- Component state: the flat entry registry and the bucket array. -/
structure HashState where
  entries : List (List Nat × HVal)
  buckets : List (List HashEntry)
  deriving DecidableEq, Repr

/-- The hash function: iterated `hash = (hash + charCode * (i+1)) % bucketSize`
over the key's characters, starting from 0. -/
def hashFunction (bucketSize : Nat) (key : List Nat) : Nat :=
  key.enum.foldl (fun h p => (h + p.2 * (p.1 + 1)) % bucketSize) 0

/-- Result of `handleAddEntry`: a completed insert, a duplicate-key rejection
(alert shown, no mutation), or the silent empty-key guard. -/
inductive AddResult where
  | ok (st : HashState)
  | duplicate
  | invalid
  deriving DecidableEq, Repr

/-- Completed `handleAddEntry` (including the post-animation status
resolution).  The duplicate check scans the whole entry registry before any
mutation; the new entry is appended to the bucket selected by the hash
function, the bucket is re-marked collision when it holds more than one
entry, and after the animation delay every entry of that bucket is resolved
to collision (size > 1) or default. -/
def handleAddEntry (bucketSize : Nat) (st : HashState) (newKey : List Nat)
    (newValue : HVal) : AddResult :=
  if newKey = [] then .invalid
  else if st.entries.any (fun e => e.1 = newKey) then .duplicate
  else
    let bucketIndex := hashFunction bucketSize newKey
    let newEntry : HashEntry := ⟨newKey, newValue, .active⟩
    let b1 := (st.buckets.getD bucketIndex []) ++ [newEntry]
    let b2 := if 1 < b1.length then b1.map (fun e => ⟨e.key, e.value, .collision⟩) else b1
    let b3 := b2.map (fun e =>
      ⟨e.key, e.value, if 1 < b2.length then HStatus.collision else .default⟩)
    .ok { entries := st.entries ++ [(newKey, newValue)],
          buckets := st.buckets.set bucketIndex b3 }

/-- The component state after a call to `handleAddEntry` (a rejected call
leaves the React state untouched). -/
def applyAddEntry (bucketSize : Nat) (st : HashState) (newKey : List Nat)
    (newValue : HVal) : HashState :=
  match handleAddEntry bucketSize st newKey newValue with
  | .ok st2 => st2
  | _ => st

/-- Result of `handleRemoveEntry`: a completed removal or a silent not-found
return. -/
inductive RemoveResult where
  | ok (st : HashState)
  | notFound
  deriving DecidableEq, Repr

/-- Completed `handleRemoveEntry` (the transient deleted marking is
overwritten when the entry is filtered out).  The key's bucket is selected by
the hash function; remaining entries of that bucket are re-marked default
when its size falls to at most one. -/
def handleRemoveEntry (bucketSize : Nat) (st : HashState)
    (keyToRemove : List Nat) : RemoveResult :=
  match st.entries.findIdx? (fun e => e.1 = keyToRemove) with
  | none => .notFound
  | some _ =>
    let bucketIndex := hashFunction bucketSize keyToRemove
    let b1 := (st.buckets.getD bucketIndex []).filter (fun e => e.key ≠ keyToRemove)
    let b2 := if b1.length ≤ 1 then b1.map (fun e => ⟨e.key, e.value, .default⟩) else b1
    .ok { entries := st.entries.filter (fun e => e.1 ≠ keyToRemove),
          buckets := st.buckets.set bucketIndex b2 }

/-- The component state after a call to `handleRemoveEntry` (a not-found call
leaves the React state untouched). -/
def applyRemoveEntry (bucketSize : Nat) (st : HashState)
    (keyToRemove : List Nat) : HashState :=
  match handleRemoveEntry bucketSize st keyToRemove with
  | .ok st2 => st2
  | .notFound => st

/-- Completed `handleSearch`: every bucket is reset to its occupancy status,
the bucket selected by the hash function is highlighted, and after the delay
the found entry stays active (others resolve to collision/default).  Returns
the new bucket state and the bucket index when the key was found (the alert
reports this index). -/
def handleSearch (bucketSize : Nat) (st : HashState) (searchKey : List Nat) :
    HashState × Option Nat :=
  if searchKey = [] then (st, none)
  else
    let bucketIndex := hashFunction bucketSize searchKey
    let bks1 := st.buckets.map (fun b => b.map (fun e =>
      ⟨e.key, e.value, if 1 < b.length then HStatus.collision else .default⟩))
    let bks2 := bks1.set bucketIndex ((bks1.getD bucketIndex []).map (fun e =>
      ⟨e.key, e.value, HStatus.active⟩))
    let tgt := bks2.getD bucketIndex []
    match tgt.findIdx? (fun e => e.key = searchKey) with
    | some fi =>
      let resolved := tgt.enum.map (fun p =>
        ⟨p.2.key, p.2.value, if p.1 = fi then HStatus.active
          else if 1 < tgt.length then .collision else .default⟩)
      ({ st with buckets := bks2.set bucketIndex resolved }, some bucketIndex)
    | none =>
      let resolved := tgt.map (fun e =>
        ⟨e.key, e.value, if 1 < tgt.length then HStatus.collision else .default⟩)
      ({ st with buckets := bks2.set bucketIndex resolved }, none)

/-- The five initial key/value pairs inserted by `resetHashTable`
("name" → "John", "age" → 25, "city" → "New York", "country" → "USA",
"job" → "Developer"), keys and string values as character codes. -/
def initialData : List (List Nat × HVal) :=
  [([110, 97, 109, 101], .str [74, 111, 104, 110]),
   ([97, 103, 101], .num 25),
   ([99, 105, 116, 121], .str [78, 101, 119, 32, 89, 111, 114, 107]),
   ([99, 111, 117, 110, 116, 114, 121], .str [85, 83, 65]),
   ([106, 111, 98], .str [68, 101, 118, 101, 108, 111, 112, 101, 114])]

/-- `resetHashTable`: empty buckets, then the initial data pushed bucket by
bucket, marking a whole bucket collision whenever it exceeds one entry. -/
def resetHashTable (bucketSize : Nat) : HashState :=
  initialData.foldl (fun st kv =>
    let e : HashEntry := ⟨kv.1, kv.2, .default⟩
    let bi := hashFunction bucketSize kv.1
    let b1 := (st.buckets.getD bi []) ++ [e]
    let b2 := if 1 < b1.length then b1.map (fun x => ⟨x.key, x.value, .collision⟩) else b1
    { entries := st.entries ++ [kv], buckets := st.buckets.set bi b2 })
    ⟨[], List.replicate bucketSize []⟩

/-- A bucket is well marked when, if it holds more than one entry, every
entry carries the collision status. -/
def wellMarked (st : HashState) : Bool :=
  st.buckets.all (fun b => b.length ≤ 1 || b.all (fun e => e.status == .collision))

/-! Doubly linked list (linked-list-visualizer.tsx, listType = 'doubly').
Nodes live in a backing array; next/prev are indices into it (null = none). -/

/-- Linked-list node status tags. -/
inductive LStatus where
  | default
  | active
  | selected
  | comparing
  | inserted
  | deleted
  deriving DecidableEq, Repr

/-- One doubly-linked node: value, status and index links. -/
structure DNode where
  value : Int
  status : LStatus
  next : Option Nat
  prev : Option Nat
  deriving DecidableEq, Repr

/-- Component state of the doubly-linked-list visualizer. -/
structure DList where
  nodes : List DNode
  head : Option Nat
  tail : Option Nat
  deriving DecidableEq, Repr

/-- JS `nodes[i].prev = p` (in place). -/
def setNodePrev (l : List DNode) (i : Nat) (p : Option Nat) : List DNode :=
  match l[i]? with
  | some nd => l.set i ⟨nd.value, nd.status, nd.next, p⟩
  | none => l

/-- JS `nodes[i].next = nx` (in place). -/
def setNodeNext (l : List DNode) (i : Nat) (nx : Option Nat) : List DNode :=
  match l[i]? with
  | some nd => l.set i ⟨nd.value, nd.status, nx, nd.prev⟩
  | none => l

/-- JS `nodes[i].status = s` (in place). -/
def setNodeStatus (l : List DNode) (i : Nat) (s : LStatus) : List DNode :=
  match l[i]? with
  | some nd => l.set i ⟨nd.value, s, nd.next, nd.prev⟩
  | none => l

/-- Completed `handleAddToHead` for a doubly list: the new node points at the
old head, the old head's prev is set to 0 in place, the node is prepended,
and then every node's non-null next/prev index is renumbered by +1 (the pass
runs over the new node too).  After the animation the new node's status is
resolved to default. -/
def handleAddToHeadDoubly (st : DList) (value : Int) : DList :=
  let newNode : DNode := ⟨value, .inserted, st.head, none⟩
  let nodes1 :=
    match st.head with
    | some h => setNodePrev st.nodes h (some 0)
    | none => st.nodes
  let updated := newNode :: nodes1
  let adjusted := updated.map (fun nd =>
    ⟨nd.value, nd.status, nd.next.map (· + 1), nd.prev.map (· + 1)⟩)
  { nodes := setNodeStatus adjusted 0 .default,
    head := some 0,
    tail := match st.tail with | some t => some (t + 1) | none => some 0 }

/-- Completed `handleAddToTail` for a doubly list: the new node's prev is the
old tail index, the old tail's next is set to the new node's index, the node
is appended (no renumbering), and the status is resolved after the
animation. -/
def handleAddToTailDoubly (st : DList) (value : Int) : DList :=
  let newNode : DNode := ⟨value, .inserted, none, st.tail⟩
  let nodes1 :=
    match st.tail with
    | some t => setNodeNext st.nodes t (some st.nodes.length)
    | none => st.nodes
  let updated := nodes1 ++ [newNode]
  { nodes := setNodeStatus updated (updated.length - 1) .default,
    head := match st.head with | none => some 0 | some h => some h,
    tail := some (updated.length - 1) }

/-- The initial doubly list built by `resetList` (values 10, 20, 30, 40). -/
def resetDoubly : DList :=
  { nodes := [⟨10, .default, some 1, none⟩, ⟨20, .default, some 2, some 0⟩,
              ⟨30, .default, some 3, some 1⟩, ⟨40, .default, none, some 2⟩],
    head := some 0, tail := some 3 }

/-- Index-link consistency for a doubly list: whenever node `i` has a
non-null next pointing at node `j`, node `j` exists and its prev equals
`i`. -/
def prevConsistent (st : DList) : Bool :=
  (List.range st.nodes.length).all (fun i =>
    match st.nodes[i]? with
    | some nd =>
      match nd.next with
      | some j =>
        match st.nodes[j]? with
        | some nd2 => nd2.prev == some i
        | none => false
      | none => true
    | none => true)

/-! Binary search tree (binary tree visualizer).  Node values are numeric
strings compared through parseInt in the source; they are modelled as Int.
The parent back-references are used only by the renderer and are identities
under the rebuild performed by delete, so the embedding keeps value, height,
status and the two subtrees. -/

/-- Tree node status tags. -/
inductive TStatus where
  | default
  | visiting
  | inserting
  | found
  | removing
  | current
  deriving DecidableEq, Repr

/-- A binary tree: empty (JS null) or a node with value, height, status and
two subtrees. -/
inductive BTree where
  | nil
  | node (value : Int) (height : Nat) (status : TStatus) (left right : BTree)
  deriving DecidableEq, Repr

/-- JS `node?.height || 0`. -/
def heightOf : BTree → Nat
  | .nil => 0
  | .node _ h _ _ _ => h

/-- `insertNodeDirectly`: ordered descent, new leaf of height 1 at the first
null link, heights recomputed on the path, duplicates returned unchanged. -/
def insertNodeDirectly : BTree → Int → BTree
  | .nil, v => .node v 1 .default .nil .nil
  | .node nv h s l r, v =>
    if v < nv then
      let nl := insertNodeDirectly l v
      .node nv (max (heightOf r) (heightOf nl) + 1) s nl r
    else if v > nv then
      let nr := insertNodeDirectly r v
      .node nv (max (heightOf l) (heightOf nr) + 1) s l nr
    else .node nv h s l r

/-- The successor scan `let successor = n.right; while (successor.left)`: the
value of the leftmost node, with a default for the empty tree. -/
def minValD : BTree → Int → Int
  | .nil, d => d
  | .node v _ _ l _, _ => minValD l v

/-- `deleteNode`: ordered descent; leaf removed outright, single child
promoted, two children replaced by the in-order successor value with the
successor deleted from the right subtree. -/
def deleteNode : BTree → Int → BTree
  | .nil, _ => .nil
  | .node nv h s l r, v =>
    if v < nv then .node nv h s (deleteNode l v) r
    else if v > nv then .node nv h s l (deleteNode r v)
    else
      match l, r with
      | .nil, .nil => .nil
      | .nil, .node rv rh rs rl rr => .node rv rh rs rl rr
      | .node lv lh ls ll lr, .nil => .node lv lh ls ll lr
      | .node lv lh ls ll lr, .node rv rh rs rl rr =>
        let m := minValD (.node rv rh rs rl rr) 0
        .node m h s (.node lv lh ls ll lr)
          (deleteNode (.node rv rh rs rl rr) m)

/-- In-order traversal of the values. -/
def inorder : BTree → List Int
  | .nil => []
  | .node v _ _ l r => inorder l ++ [v] ++ inorder r

/-- The root's value, if any. -/
def rootVal : BTree → Option Int
  | .nil => none
  | .node v _ _ _ _ => some v

/-- Every value in the tree satisfies `p`. -/
def allT (p : Int → Bool) : BTree → Bool
  | .nil => true
  | .node v _ _ l r => p v && allT p l && allT p r

/-- The strict binary-search-tree ordering invariant. -/
def isBST : BTree → Bool
  | .nil => true
  | .node v _ _ l r =>
    allT (fun x => x < v) l && allT (fun x => v < x) r && isBST l && isBST r

/-- Membership of a value in the tree. -/
def memT (x : Int) : BTree → Bool
  | .nil => false
  | .node v _ _ l r => x == v || memT x l || memT x r

/-- Build a tree by inserting each value in order with `insertNodeDirectly`
(the batch-building path of the component). -/
def buildTree (vs : List Int) : BTree :=
  vs.foldl insertNodeDirectly .nil

/-! Playback transport of the array visualizer (part_005/part_002):
`stepVisualization` plus the shared VisualizationControls wiring, where both
the step-forward and the step-backward button invoke `onStep`, and the array
visualizer passes `stepVisualization`, which ignores the direction flag. -/

/-- Transport state of the array visualizer. -/
structure VizState where
  currentStep : Nat
  isPlaying : Bool
  isCompleted : Bool
  steps : List (List Item)
  totalSteps : Nat
  deriving DecidableEq, Repr

/-- `stepVisualization`: no-op when completed or at the last step (in JS the
guard `currentStep >= steps.length - 1` also fires on an empty log where the
threshold is -1, matching truncated Nat subtraction); otherwise regenerate
the log if it holds at most one step (`gen` is the sort's output), then
advance by one and mark completion at the last index. -/
def stepVisualization (gen : List (List Item)) (st : VizState) : VizState :=
  if st.isCompleted || decide (st.steps.length - 1 ≤ st.currentStep) then st
  else
    let st1 := if st.steps.length ≤ 1
      then { st with steps := gen, totalSteps := gen.length - 1 }
      else st
    let nextStep := st.currentStep + 1
    { st1 with
      currentStep := nextStep,
      isCompleted := if nextStep = st1.steps.length - 1 then true else st1.isCompleted }

/-- The `onStep` callback wired in the array visualizer: the shared controls
call `onStep false` from the step-backward button and `onStep true` from the
step-forward button, and the visualizer passes `stepVisualization`, which
takes no direction argument, so the flag is discarded. -/
def onStepCallback (gen : List (List Item)) (_forward : Bool) (st : VizState) : VizState :=
  stepVisualization gen st

end AlgoViz
namespace AlgoViz

/-! List index helpers used to relate the index-based loops to structural
recursion. -/

theorem getElem?_append_len {α : Type} (t1 t2 : List α) (j : Nat) :
    (t1 ++ t2)[t1.length + j]? = t2[j]? := by
  induction t1 with
  | nil => simp
  | cons a t ih =>
    have : t.length + 1 + j = (t.length + j) + 1 := by omega
    simp [List.cons_append, this, List.getElem?_cons_succ, ih]

theorem getElem?_append_mid {α : Type} (t1 t2 : List α) (a : α) :
    (t1 ++ a :: t2)[t1.length]? = some a := by
  have h := getElem?_append_len t1 (a :: t2) 0
  simpa using h

theorem set_append_len {α : Type} (t1 t2 : List α) (a b : α) :
    (t1 ++ a :: t2).set t1.length b = t1 ++ b :: t2 := by
  induction t1 with
  | nil => simp
  | cons x t ih => simp [List.cons_append, List.set, ih]

theorem set_getElem?_self {α : Type} (l : List α) (j : Nat) (x : α)
    (h : l[j]? = some x) : l.set j x = l := by
  induction l generalizing j with
  | nil => simp at h
  | cons a t ih =>
    cases j with
    | zero => simp at h; simp [List.set, h]
    | succ k =>
      simp only [List.getElem?_cons_succ] at h
      simp [List.set, ih k h]

theorem swap_perm {α : Type} (t1 t2 t3 : List α) (a b : α) :
    (t1 ++ (a :: (t2 ++ (b :: t3)))).Perm (t1 ++ (b :: (t2 ++ (a :: t3)))) := by
  apply List.Perm.append_left
  have h1 : (a :: (t2 ++ b :: t3)).Perm (a :: b :: (t2 ++ t3)) :=
    List.Perm.cons a List.perm_middle
  have h2 : (a :: b :: (t2 ++ t3)).Perm (b :: a :: (t2 ++ t3)) := List.Perm.swap b a _
  have h3 : (b :: (t2 ++ a :: t3)).Perm (b :: a :: (t2 ++ t3)) :=
    List.Perm.cons b List.perm_middle
  simpa using (h1.trans h2).trans h3.symm

/-! Single structural bubble pass: basic facts. -/

theorem onePass_length (l : List Int) : (onePass l).length = l.length := by
  induction l using onePass.induct with
  | case1 => simp [onePass]
  | case2 a => simp [onePass]
  | case3 a b t h ih => simp [onePass, h] at ih ⊢; omega
  | case4 a b t h ih => simp [onePass, h] at ih ⊢; omega

theorem onePass_perm (l : List Int) : (onePass l).Perm l := by
  induction l using onePass.induct with
  | case1 => simp [onePass]
  | case2 a => simp [onePass]
  | case3 a b t h ih =>
    simp only [onePass, if_pos h]
    exact (List.Perm.cons b ih).trans (List.Perm.swap a b t)
  | case4 a b t h ih =>
    simp only [onePass, if_neg h]
    exact List.Perm.cons a ih

theorem onePass_decomp (l : List Int) (a : Int) :
    ∃ t M, onePass (a :: l) = t ++ [M] ∧ ∀ x ∈ a :: l, x ≤ M := by
  induction l generalizing a with
  | nil =>
    exact ⟨[], a, by simp [onePass], by simp⟩
  | cons b t ih =>
    by_cases h : a > b
    · obtain ⟨t2, M, he, hle⟩ := ih a
      refine ⟨b :: t2, M, ?_, ?_⟩
      · simp [onePass, if_pos h, he]
      · intro x hx
        rcases List.mem_cons.mp hx with rfl | hx
        · exact hle x (by simp)
        · rcases List.mem_cons.mp hx with rfl | hx
          · exact le_trans (le_of_lt h) (hle a (by simp))
          · exact hle x (by simp [hx])
    · obtain ⟨t2, M, he, hle⟩ := ih b
      refine ⟨a :: t2, M, ?_, ?_⟩
      · simp [onePass, if_neg h, he]
      · intro x hx
        rcases List.mem_cons.mp hx with rfl | hx
        · exact le_trans (not_lt.mp (by simpa using h)) (hle b (by simp))
        · exact hle x hx

/-! The index-based inner loop, acting on a decomposed list, is the structural
pass on the active segment. -/

theorem cmpSwap_decomp (t1 t3 : List Int) (a b : Int) :
    cmpSwap (t1 ++ a :: b :: t3) t1.length =
      if a > b then t1 ++ b :: a :: t3 else t1 ++ a :: b :: t3 := by
  have h1 : (t1 ++ a :: b :: t3)[t1.length]? = some a := getElem?_append_mid _ _ _
  have h2 : (t1 ++ a :: b :: t3)[t1.length + 1]? = some b := by
    have := getElem?_append_mid (t1 ++ [a]) t3 b
    simpa [List.append_assoc] using this
  by_cases hab : a > b
  · have hs1 : (t1 ++ a :: b :: t3).set t1.length b = t1 ++ b :: b :: t3 :=
      set_append_len _ _ _ _
    have hs2 : (t1 ++ b :: b :: t3).set (t1.length + 1) a = t1 ++ b :: a :: t3 := by
      have h := set_append_len (t1 ++ [b]) t3 b a
      simp only [List.append_assoc, List.singleton_append, List.length_append,
        List.length_singleton] at h
      exact h
    simp [cmpSwap, h1, h2, hab, hs1, hs2]
  · simp [cmpSwap, h1, h2, hab]

theorem passFrom_eq (cnt : Nat) :
    ∀ (pre act post : List Int), act.length = cnt + 1 →
      (List.range' pre.length cnt).foldl cmpSwap (pre ++ act ++ post) =
        pre ++ onePass act ++ post := by
  induction cnt with
  | zero =>
    intro pre act post hlen
    match act, hlen with
    | [a], _ => simp [onePass]
  | succ k ih =>
    intro pre act post hlen
    match act, hlen with
    | a :: b :: t, hlen =>
      have hstep : cmpSwap (pre ++ (a :: b :: t) ++ post) pre.length =
          if a > b then pre ++ b :: a :: (t ++ post) else pre ++ a :: b :: (t ++ post) := by
        have := cmpSwap_decomp pre (t ++ post) a b
        simpa [List.append_assoc] using this
      rw [List.range'_succ]
      simp only [List.foldl_cons]
      rw [hstep]
      by_cases hab : a > b
      · rw [if_pos hab]
        have harr : pre ++ b :: a :: (t ++ post) = (pre ++ [b]) ++ (a :: t) ++ post := by
          simp [List.append_assoc]
        have hpre : pre.length + 1 = (pre ++ [b]).length := by simp
        rw [harr, hpre, ih (pre ++ [b]) (a :: t) post (by simpa using hlen)]
        simp [onePass, if_pos hab, List.append_assoc]
      · rw [if_neg hab]
        have harr : pre ++ a :: b :: (t ++ post) = (pre ++ [a]) ++ (b :: t) ++ post := by
          simp [List.append_assoc]
        have hpre : pre.length + 1 = (pre ++ [a]).length := by simp
        rw [harr, hpre, ih (pre ++ [a]) (b :: t) post (by simpa using hlen)]
        simp [onePass, if_neg hab, List.append_assoc]

theorem bubblePassVals_eq (act post : List Int) (k : Nat) (hlen : act.length = k + 1) :
    bubblePassVals (act ++ post) k = onePass act ++ post := by
  have h := passFrom_eq k [] act post hlen
  simpa [bubblePassVals, List.range_eq_range'] using h

/-! Correctness of the shrinking passes. -/

theorem bubbleGo_sorted_perm :
    ∀ (k : Nat) (front settled : List Int), front.length = k →
      List.Sorted (· ≤ ·) settled → (∀ x ∈ front, ∀ y ∈ settled, x ≤ y) →
      List.Sorted (· ≤ ·) (bubbleGo k (front ++ settled)) ∧
        (bubbleGo k (front ++ settled)).Perm (front ++ settled) := by
  intro k
  induction k with
  | zero =>
    intro front settled hlen hs _
    have : front = [] := List.eq_nil_of_length_eq_zero hlen
    subst this
    simpa [bubbleGo] using hs
  | succ k ih =>
    intro front settled hlen hs hle
    match front, hlen with
    | a :: f, hlen =>
      have hpass : bubblePassVals ((a :: f) ++ settled) k = onePass (a :: f) ++ settled :=
        bubblePassVals_eq (a :: f) settled k (by simpa using hlen)
      obtain ⟨t2, M, hdec, hM⟩ := onePass_decomp f a
      have hperm1 : (onePass (a :: f)).Perm (a :: f) := onePass_perm (a :: f)
      have hmemP : ∀ x ∈ onePass (a :: f), x ∈ a :: f := fun x hx => hperm1.mem_iff.mp hx
      have hlent2 : t2.length = k := by
        have h1 : (onePass (a :: f)).length = (a :: f).length := onePass_length _
        rw [hdec] at h1
        simp at h1
        have hf : f.length = k := by simpa using hlen
        omega
      have hMmem : M ∈ a :: f := hmemP M (by simp [hdec])
      have hsort2 : List.Sorted (· ≤ ·) (M :: settled) := by
        rw [List.sorted_cons]
        exact ⟨fun b hb => hle M hMmem b hb, hs⟩
      have hle2 : ∀ x ∈ t2, ∀ y ∈ M :: settled, x ≤ y := by
        intro x hx y hy
        have hxf : x ∈ a :: f := hmemP x (by simp [hdec, hx])
        rcases List.mem_cons.mp hy with rfl | hy
        · exact hM x hxf
        · exact hle x hxf y hy
      obtain ⟨hres_sorted, hres_perm⟩ := ih t2 (M :: settled) hlent2 hsort2 hle2
      have harr : t2 ++ M :: settled = onePass (a :: f) ++ settled := by
        rw [hdec]; simp
      have hgo : bubbleGo (k + 1) ((a :: f) ++ settled) =
          bubbleGo k (t2 ++ M :: settled) := by
        rw [bubbleGo, hpass, harr]
      constructor
      · rw [hgo]; exact hres_sorted
      · rw [hgo]
        have e1 : (onePass (a :: f) ++ settled).Perm ((a :: f) ++ settled) :=
          hperm1.append_right settled
        exact hres_perm.trans (by rw [harr]; exact e1)

theorem bubbleVals_eq_go : ∀ (n : Nat) (acc : List Int),
    (List.range n).foldl (fun a i => bubblePassVals a (n - i - 1)) acc = bubbleGo n acc := by
  intro n
  induction n with
  | zero => intro acc; simp [bubbleGo]
  | succ k ih =>
    intro acc
    rw [List.range_succ_eq_map]
    simp only [List.foldl_cons, List.foldl_map, Nat.succ_eq_add_one]
    have hfun : (fun (a : List Int) (i : Nat) => bubblePassVals a (k + 1 - (i + 1) - 1))
        = fun (a : List Int) (i : Nat) => bubblePassVals a (k - i - 1) := by
      funext a i
      congr 1
      omega
    have hinit : k + 1 - 0 - 1 = k := by omega
    rw [hinit, hfun, ih (bubblePassVals acc k)]
    simp [bubbleGo]

theorem bubbleVals_sorted_perm (l : List Int) :
    List.Sorted (· ≤ ·) (bubbleVals l) ∧ (bubbleVals l).Perm l := by
  have h := bubbleGo_sorted_perm l.length l [] rfl (by simp) (by simp)
  simp only [List.append_nil] at h
  rw [bubbleVals, bubbleVals_eq_go]
  exact h

end AlgoViz
namespace AlgoViz

/-! Projections of the stateful step generator to the pure value level. -/

theorem setSt_map_value (l : List Item) (j : Nat) (s : Status) :
    (setSt l j s).map Item.value = l.map Item.value := by
  unfold setSt
  cases h : l[j]? with
  | none => rfl
  | some it =>
    rw [List.map_set]
    apply set_getElem?_self
    rw [List.getElem?_map, h]
    rfl

theorem setSt_length (l : List Item) (j : Nat) (s : Status) :
    (setSt l j s).length = l.length := by
  unfold setSt
  cases l[j]? <;> simp

theorem setSt_getElem? (l : List Item) (j k : Nat) (s : Status) :
    (setSt l j s)[k]? =
      if j = k then (l[k]?).map (fun it => ⟨it.value, s⟩) else l[k]? := by
  unfold setSt
  cases h : l[j]? with
  | none =>
    by_cases hjk : j = k
    · subst hjk
      rw [if_pos rfl, h]
      rfl
    · rw [if_neg hjk]
  | some it =>
    rw [List.getElem?_set]
    by_cases hjk : j = k
    · subst hjk
      have hlt : j < l.length := (List.getElem?_eq_some.mp h).1
      rw [if_pos rfl, if_pos rfl, if_pos hlt, h]
      rfl
    · rw [if_neg hjk, if_neg hjk]

theorem mark_copy (st : SortState) (j : Nat) (s : Status) :
    (st.mark j s).copy = setSt st.copy j s := rfl

theorem setSt_eq_some (l : List Item) (j : Nat) (it : Item) (s : Status)
    (h : l[j]? = some it) : setSt l j s = l.set j ⟨it.value, s⟩ := by
  unfold setSt
  rw [h]

theorem setSt_eq_none (l : List Item) (j : Nat) (s : Status)
    (h : l[j]? = none) : setSt l j s = l := by
  unfold setSt
  rw [h]

theorem mark_map_value (st : SortState) (j : Nat) (s : Status) :
    (st.mark j s).copy.map Item.value = st.copy.map Item.value :=
  setSt_map_value _ _ _

theorem push_copy (st : SortState) : st.push.copy = st.copy := rfl

theorem push_snaps (st : SortState) : st.push.snaps = st.snaps ++ [st.copy] := rfl

theorem mark_snaps (st : SortState) (j : Nat) (s : Status) :
    (st.mark j s).snaps = st.snaps := rfl

theorem swapAt_map_value (st : SortState) (j k : Nat) :
    (st.swapAt j k).copy.map Item.value = swapIdx (st.copy.map Item.value) j k := by
  unfold SortState.swapAt swapIdx
  cases hj : st.copy[j]? with
  | none => simp [List.getElem?_map, hj]
  | some a =>
    cases hk : st.copy[k]? with
    | none => simp [List.getElem?_map, hj, hk]
    | some b => simp [List.getElem?_map, hj, hk, List.map_set]

theorem bubbleBody_map_value (st : SortState) (j : Nat) :
    (bubbleBody st j).copy.map Item.value = cmpSwap (st.copy.map Item.value) j := by
  have h1j : (((st.mark j .comparing).mark (j+1) .comparing).push).copy[j]? =
      (st.copy[j]?).map (fun it => ⟨it.value, .comparing⟩) := by
    simp only [push_copy, mark_copy]
    rw [setSt_getElem?, setSt_getElem?]
    have hne : j + 1 ≠ j := by omega
    rw [if_neg hne, if_pos rfl]
  have h1j1 : (((st.mark j .comparing).mark (j+1) .comparing).push).copy[j+1]? =
      (st.copy[j+1]?).map (fun it => ⟨it.value, .comparing⟩) := by
    simp only [push_copy, mark_copy]
    rw [setSt_getElem?, setSt_getElem?]
    have hne : j ≠ j + 1 := by omega
    rw [if_pos rfl, if_neg hne]
  have h1v : (((st.mark j .comparing).mark (j+1) .comparing).push).copy.map Item.value =
      st.copy.map Item.value := by
    simp only [push_copy, mark_copy, setSt_map_value]
  unfold bubbleBody
  cases hj : st.copy[j]? with
  | none =>
    rw [cmpSwap]
    simp only [h1j, h1j1, hj, Option.map_none', List.getElem?_map]
    simp only [mark_map_value, mark_copy, setSt_map_value, push_copy]
  | some a =>
    cases hj1 : st.copy[j+1]? with
    | none =>
      rw [cmpSwap]
      simp only [h1j, h1j1, hj, hj1, Option.map_none', Option.map_some', List.getElem?_map]
      simp only [mark_map_value, mark_copy, setSt_map_value, push_copy]
    | some b =>
      rw [cmpSwap]
      simp only [h1j, h1j1, hj, hj1, Option.map_some', List.getElem?_map]
      by_cases hab : a.value > b.value
      · rw [if_pos hab, if_pos hab]
        simp only [mark_map_value, push_copy]
        rw [swapAt_map_value]
        simp only [push_copy, mark_map_value, h1v]
        unfold swapIdx
        rw [List.getElem?_map, List.getElem?_map, hj, hj1]
        simp [List.map_set]
      · rw [if_neg hab, if_neg hab]
        simp only [mark_map_value, h1v]

theorem foldl_bubbleBody_map_value (idxs : List Nat) :
    ∀ (st : SortState),
      ((idxs.foldl bubbleBody st).copy.map Item.value) =
        idxs.foldl cmpSwap (st.copy.map Item.value) := by
  induction idxs with
  | nil => intro st; rfl
  | cons j t ih =>
    intro st
    simp only [List.foldl_cons]
    rw [ih, bubbleBody_map_value]

theorem bubbleOuterBody_map_value (n : Nat) (st : SortState) (i : Nat) :
    (bubbleOuterBody n st i).copy.map Item.value =
      bubblePassVals (st.copy.map Item.value) (n - i - 1) := by
  unfold bubbleOuterBody bubblePassVals
  simp only [push_copy, mark_map_value]
  exact foldl_bubbleBody_map_value _ _

theorem foldl_bubbleOuter_map_value (n : Nat) (idxs : List Nat) :
    ∀ (st : SortState),
      ((idxs.foldl (bubbleOuterBody n) st).copy.map Item.value) =
        idxs.foldl (fun acc i => bubblePassVals acc (n - i - 1))
          (st.copy.map Item.value) := by
  induction idxs with
  | nil => intro st; rfl
  | cons j t ih =>
    intro st
    simp only [List.foldl_cons]
    rw [ih, bubbleOuterBody_map_value]

/-- Setting slots `0, …, m-1` to sorted rewrites the statuses of the first `m`
items and keeps the rest. -/
theorem foldl_mark_sorted (m : Nat) :
    ∀ (st : SortState),
      ((List.range m).foldl (fun s i => s.mark i .sorted) st).copy =
        (st.copy.take m).map (fun it => ⟨it.value, .sorted⟩) ++ st.copy.drop m := by
  induction m with
  | zero => intro st; simp
  | succ k ih =>
    intro st
    rw [List.range_succ, List.foldl_append]
    simp only [List.foldl_cons, List.foldl_nil]
    rw [mark_copy, ih]
    cases hk : st.copy[k]? with
    | none =>
      have hle : st.copy.length ≤ k := by
        rw [← List.getElem?_eq_none_iff]
        exact hk
      have htk : st.copy.take k = st.copy := List.take_of_length_le hle
      have htk1 : st.copy.take (k+1) = st.copy := List.take_of_length_le (by omega)
      have hdk : st.copy.drop k = [] := List.drop_eq_nil_of_le hle
      have hdk1 : st.copy.drop (k+1) = [] := List.drop_eq_nil_of_le (by omega)
      rw [htk, htk1, hdk, hdk1]
      have hoob : (List.map (fun it => (⟨it.value, Status.sorted⟩ : Item)) st.copy ++ [])[k]? =
          none := by
        rw [List.append_nil, List.getElem?_eq_none_iff]
        simpa using hle
      rw [setSt_eq_none _ _ _ hoob]
    | some c =>
      have hlt : k < st.copy.length := (List.getElem?_eq_some.mp hk).1
      have htake : (st.copy.take k).length = k := by
        rw [List.length_take]
        omega
      have hdropk : st.copy.drop k = c :: st.copy.drop (k+1) := by
        have := List.getElem?_eq_some.mp hk
        obtain ⟨h1, h2⟩ := this
        rw [List.drop_eq_getElem_cons h1, h2]
      rw [hdropk]
      have hmidlen : (List.map (fun it => (⟨it.value, Status.sorted⟩ : Item))
          (st.copy.take k)).length = k := by
        rw [List.length_map, htake]
      have hget : ((st.copy.take k).map (fun it => (⟨it.value, Status.sorted⟩ : Item)) ++
          c :: st.copy.drop (k+1))[k]? = some c := by
        have := getElem?_append_mid
          ((st.copy.take k).map (fun it => (⟨it.value, Status.sorted⟩ : Item)))
          (st.copy.drop (k+1)) c
        rw [hmidlen] at this
        exact this
      rw [setSt_eq_some _ _ _ _ hget]
      have hset := set_append_len
        ((st.copy.take k).map (fun it => (⟨it.value, Status.sorted⟩ : Item)))
        (st.copy.drop (k+1)) c ⟨c.value, .sorted⟩
      rw [hmidlen] at hset
      rw [hset]
      rw [List.take_succ, hk]
      simp [List.map_append]

end AlgoViz
namespace AlgoViz

theorem cmpSwap_length (l : List Int) (j : Nat) : (cmpSwap l j).length = l.length := by
  unfold cmpSwap
  cases l[j]? <;> cases l[j+1]? <;> simp
  split <;> simp

theorem foldl_cmpSwap_length (idxs : List Nat) :
    ∀ (l : List Int), (idxs.foldl cmpSwap l).length = l.length := by
  induction idxs with
  | nil => intro l; rfl
  | cons j t ih =>
    intro l
    simp only [List.foldl_cons]
    rw [ih, cmpSwap_length]

theorem foldl_mark_sorted_snaps (idxs : List Nat) :
    ∀ (st : SortState),
      ((idxs.foldl (fun s i => s.mark i .sorted) st).snaps = st.snaps) := by
  induction idxs with
  | nil => intro st; rfl
  | cons j t ih =>
    intro st
    simp only [List.foldl_cons]
    rw [ih, mark_snaps]

theorem initSortState_map_value (input : List Int) :
    (initSortState input).copy.map Item.value = input := by
  unfold initSortState
  simp only [List.map_map]
  have : (Item.value ∘ fun v => (⟨v, Status.default⟩ : Item)) = id := rfl
  rw [this, List.map_id]

/-- The copy of the generator state after the full outer loop holds exactly the
value-level bubble-sort result. -/
theorem bubble_outer_vals (input : List Int) :
    (((List.range input.length).foldl (bubbleOuterBody input.length)
        (initSortState input)).copy.map Item.value) = bubbleVals input := by
  rw [foldl_bubbleOuter_map_value, initSortState_map_value]
  rfl

theorem getLast?_cons_concat {α : Type} (a x : α) (l : List α) :
    (a :: (l ++ [x])).getLast? = some x := by
  have h : a :: (l ++ [x]) = (a :: l) ++ [x] := by simp
  rw [h, List.getLast?_concat]

/-- The last recorded bubble-sort step is the value-level sort result with
every status sorted. -/
theorem bubbleSortSteps_getLast (input : List Int) :
    (bubbleSortSteps input).getLast? =
      some ((bubbleVals input).map (fun v => ⟨v, .sorted⟩)) := by
  unfold bubbleSortSteps
  set st1 := (List.range input.length).foldl (bubbleOuterBody input.length)
    (initSortState input) with hst1
  have hvals : st1.copy.map Item.value = bubbleVals input := bubble_outer_vals input
  have hlen : st1.copy.length = input.length := by
    have h1 : (st1.copy.map Item.value).length = (bubbleVals input).length := by rw [hvals]
    have h2 : (bubbleVals input).Perm input := (bubbleVals_sorted_perm input).2
    simp only [List.length_map] at h1
    rw [h1, h2.length_eq]
  set st2 := (List.range input.length).foldl (fun st i => st.mark i .sorted) st1 with hst2
  have hcopy2 : st2.copy = st1.copy.map (fun it => ⟨it.value, .sorted⟩) := by
    rw [hst2, foldl_mark_sorted]
    rw [← hlen]
    simp [List.take_length, List.drop_length]
  have hsnaps : st2.push.snaps = st2.snaps ++ [st2.copy] := push_snaps _
  simp only [hsnaps]
  rw [getLast?_cons_concat, hcopy2]
  have : st1.copy.map (fun it => (⟨it.value, Status.sorted⟩ : Item)) =
      (st1.copy.map Item.value).map (fun v => ⟨v, .sorted⟩) := by
    rw [List.map_map]
    rfl
  rw [this, hvals]

/-- Bubble sort (part_005): the final step of the log is a non-decreasing
permutation of the input with every status sorted. -/
theorem bubble_final (input : List Int) :
    ∃ last, (bubbleSortSteps input).getLast? = some last ∧
      (last.map Item.value).Perm input ∧
      List.Sorted (· ≤ ·) (last.map Item.value) ∧
      ∀ it ∈ last, it.status = Status.sorted := by
  refine ⟨(bubbleVals input).map (fun v => ⟨v, .sorted⟩),
    bubbleSortSteps_getLast input, ?_, ?_, ?_⟩
  · have h : ((bubbleVals input).map (fun v => (⟨v, Status.sorted⟩ : Item))).map Item.value
        = bubbleVals input := by
      rw [List.map_map]
      have hid : (Item.value ∘ fun v => (⟨v, Status.sorted⟩ : Item)) = id := rfl
      rw [hid, List.map_id]
    rw [h]
    exact (bubbleVals_sorted_perm input).2
  · have h : ((bubbleVals input).map (fun v => (⟨v, Status.sorted⟩ : Item))).map Item.value
        = bubbleVals input := by
      rw [List.map_map]
      have hid : (Item.value ∘ fun v => (⟨v, Status.sorted⟩ : Item)) = id := rfl
      rw [hid, List.map_id]
    rw [h]
    exact (bubbleVals_sorted_perm input).1
  · intro it hit
    simp only [List.mem_map] at hit
    obtain ⟨v, _, rfl⟩ := hit
    rfl

end AlgoViz
namespace AlgoViz

/-! Pure value-level correctness of the selection pass structure. -/

theorem getElem?_getD_of_lt {α : Type} (l : List α) (j : Nat) (d : α) (h : j < l.length) :
    l[j]? = some (l.getD j d) := by
  cases hx : l[j]? with
  | none =>
    have := List.getElem?_eq_none_iff.mp hx
    omega
  | some x =>
    rw [List.getD_eq_getElem?_getD, hx]
    rfl

theorem selMin_foldl (l : List Int) :
    ∀ (cnt s mi : Nat), mi < l.length → s + cnt ≤ l.length →
      ((List.range' s cnt).foldl (selMin l) mi < l.length ∧
       ((List.range' s cnt).foldl (selMin l) mi = mi ∨
         (s ≤ (List.range' s cnt).foldl (selMin l) mi ∧
           (List.range' s cnt).foldl (selMin l) mi < s + cnt)) ∧
       (∀ j, (j = mi ∨ (s ≤ j ∧ j < s + cnt)) →
         l.getD ((List.range' s cnt).foldl (selMin l) mi) 0 ≤ l.getD j 0)) := by
  intro cnt
  induction cnt with
  | zero =>
    intro s mi hmi _
    refine ⟨by simpa using hmi, Or.inl (by simp), ?_⟩
    intro j hj
    rcases hj with rfl | ⟨h1, h2⟩
    · simp
    · omega
  | succ k ih =>
    intro s mi hmi hbound
    have hs : s < l.length := by omega
    have hsome_s : l[s]? = some (l.getD s 0) := getElem?_getD_of_lt l s 0 hs
    have hsome_mi : l[mi]? = some (l.getD mi 0) := getElem?_getD_of_lt l mi 0 hmi
    have hm1 : selMin l mi s = if l.getD s 0 < l.getD mi 0 then s else mi := by
      unfold selMin
      rw [hsome_s, hsome_mi]
    have hm1lt : selMin l mi s < l.length := by
      rw [hm1]
      split <;> omega
    have hrec := ih (s+1) (selMin l mi s) hm1lt (by omega)
    rw [List.range'_succ]
    simp only [List.foldl_cons]
    obtain ⟨hr1, hr2, hr3⟩ := hrec
    refine ⟨hr1, ?_, ?_⟩
    · rcases hr2 with he | ⟨h1, h2⟩
      · rw [he, hm1]
        split
        · right; constructor <;> omega
        · left; rfl
      · right; constructor <;> omega
    · have hle_m1 : l.getD ((List.range' (s+1) k).foldl (selMin l) (selMin l mi s)) 0 ≤
          l.getD (selMin l mi s) 0 := hr3 _ (Or.inl rfl)
      intro j hj
      by_cases hcmp : l.getD s 0 < l.getD mi 0
      · have hm1e : selMin l mi s = s := by rw [hm1, if_pos hcmp]
        rw [hm1e] at hle_m1 hr3 ⊢
        rcases hj with rfl | ⟨h1, h2⟩
        · exact le_trans hle_m1 (le_of_lt hcmp)
        · by_cases hjs : j = s
          · subst hjs
            exact hle_m1
          · exact hr3 j (Or.inr ⟨by omega, by omega⟩)
      · have hm1e : selMin l mi s = mi := by rw [hm1, if_neg hcmp]
        rw [hm1e] at hle_m1 hr3 ⊢
        rcases hj with rfl | ⟨h1, h2⟩
        · exact hle_m1
        · by_cases hjs : j = s
          · subst hjs
            exact le_trans hle_m1 (not_lt.mp hcmp)
          · exact hr3 j (Or.inr ⟨by omega, by omega⟩)

theorem swapIdx_eq (l : List Int) (i k : Nat) (a b : Int)
    (h1 : l[i]? = some a) (h2 : l[k]? = some b) :
    swapIdx l i k = (l.set i b).set k a := by
  unfold swapIdx
  rw [h1, h2]

theorem swapIdx_decomp (pre mid post : List Int) (a b : Int) :
    swapIdx (pre ++ (a :: (mid ++ (b :: post)))) pre.length (pre.length + 1 + mid.length) =
      pre ++ (b :: (mid ++ (a :: post))) := by
  have h1 : (pre ++ (a :: (mid ++ (b :: post))))[pre.length]? = some a :=
    getElem?_append_mid _ _ _
  have h2 : (pre ++ (a :: (mid ++ (b :: post))))[pre.length + 1 + mid.length]? = some b := by
    have h := getElem?_append_mid (pre ++ (a :: mid)) post b
    have harr : (pre ++ (a :: mid)) ++ (b :: post) = pre ++ (a :: (mid ++ (b :: post))) := by
      simp
    have hlen : (pre ++ (a :: mid)).length = pre.length + 1 + mid.length := by
      simp
      omega
    rw [harr, hlen] at h
    exact h
  rw [swapIdx_eq _ _ _ a b h1 h2]
  have hset1 : (pre ++ (a :: (mid ++ (b :: post)))).set pre.length b =
      pre ++ (b :: (mid ++ (b :: post))) := set_append_len _ _ _ _
  rw [hset1]
  have harr2 : pre ++ (b :: (mid ++ (b :: post))) = (pre ++ (b :: mid)) ++ (b :: post) := by
    simp
  have hlen2 : (pre ++ (b :: mid)).length = pre.length + 1 + mid.length := by
    simp
    omega
  rw [harr2, ← hlen2, set_append_len]
  simp

theorem mem_index_in_append (pre suf : List Int) (y : Int) (hy : y ∈ suf) :
    ∃ j, pre.length ≤ j ∧ j < pre.length + suf.length ∧ (pre ++ suf).getD j 0 = y := by
  obtain ⟨jr, hjr⟩ := List.mem_iff_getElem?.mp hy
  have hlt : jr < suf.length := (List.getElem?_eq_some.mp hjr).1
  refine ⟨pre.length + jr, by omega, by omega, ?_⟩
  have h := getElem?_append_len pre suf jr
  rw [hjr] at h
  rw [List.getD_eq_getElem?_getD, h]
  rfl

theorem selPass_fold_inv :
    ∀ (cnt n i : Nat) (pre suf : List Int),
      i + cnt + 1 = n → pre.length = i → i + suf.length = n →
      List.Sorted (· ≤ ·) pre → (∀ x ∈ pre, ∀ y ∈ suf, x ≤ y) →
      List.Sorted (· ≤ ·) ((List.range' i cnt).foldl (selPass n) (pre ++ suf)) ∧
        ((List.range' i cnt).foldl (selPass n) (pre ++ suf)).Perm (pre ++ suf) := by
  intro cnt
  induction cnt with
  | zero =>
    intro n i pre suf hn hpre hsuf hsorted hle
    have hs1 : suf.length = 1 := by omega
    match suf, hs1 with
    | [y], _ =>
      simp only [List.range'_zero, List.foldl_nil]
      constructor
      · rw [List.Sorted, List.pairwise_append]
        refine ⟨hsorted, by simp, ?_⟩
        intro a ha b hb
        simp only [List.mem_singleton] at hb
        subst hb
        exact hle a ha b (by simp)
      · exact List.Perm.refl _
  | succ cnt ih =>
    intro n i pre suf hn hpre hsuf hsorted hle
    have hlength : (pre ++ suf).length = n := by simp; omega
    have hsel : selPass n (pre ++ suf) i =
        (if ((List.range' (i+1) (n - i - 1)).foldl (selMin (pre ++ suf)) i) ≠ i
          then swapIdx (pre ++ suf) i
            ((List.range' (i+1) (n - i - 1)).foldl (selMin (pre ++ suf)) i)
          else (pre ++ suf)) := rfl
    set mi := (List.range' (i+1) (n - i - 1)).foldl (selMin (pre ++ suf)) i with hmidef
    have hminprops := selMin_foldl (pre ++ suf) (n - i - 1) (i+1) i
      (by omega) (by omega)
    rw [← hmidef] at hminprops
    obtain ⟨hmi_lt, hmi_range, hmi_min⟩ := hminprops
    rw [hlength] at hmi_lt
    have hmin_all : ∀ j, i ≤ j → j < n → (pre ++ suf).getD mi 0 ≤ (pre ++ suf).getD j 0 := by
      intro j hj1 hj2
      by_cases hji : j = i
      · exact hmi_min j (Or.inl hji)
      · exact hmi_min j (Or.inr ⟨by omega, by omega⟩)
    have hminle : ∀ y ∈ suf, (pre ++ suf).getD mi 0 ≤ y := by
      intro y hy
      obtain ⟨j, hj1, hj2, hj3⟩ := mem_index_in_append pre suf y hy
      rw [← hj3]
      exact hmin_all j (by omega) (by omega)
    have hsufne : suf ≠ [] := by
      intro hcon
      rw [hcon] at hsuf
      simp at hsuf
      omega
    match suf, hsufne, hsuf, hle, hminle with
    | c :: rest, _, hsuf, hle, hminle =>
      rw [List.range'_succ]
      simp only [List.foldl_cons]
      have hgetc : (pre ++ c :: rest).getD i 0 = c := by
        rw [List.getD_eq_getElem?_getD, ← hpre, getElem?_append_mid]
        rfl
      by_cases hmi_eq : mi = i
      · -- the minimum is already in place: no swap
        have hstep : selPass n (pre ++ c :: rest) i = pre ++ c :: rest := by
          rw [hsel, if_neg (by simp [hmi_eq])]
        rw [hstep]
        have hcmin : ∀ y ∈ c :: rest, c ≤ y := by
          intro y hy
          have := hminle y hy
          rw [hmi_eq, hgetc] at this
          exact this
        have happ : (pre ++ [c]) ++ rest = pre ++ c :: rest := by simp
        have hres := ih n (i+1) (pre ++ [c]) rest (by omega) (by simp; omega)
          (by simp at hsuf ⊢; omega)
          (by
            rw [List.Sorted, List.pairwise_append]
            refine ⟨hsorted, by simp, ?_⟩
            intro a ha b hb
            simp only [List.mem_singleton] at hb
            subst hb
            exact hle a ha b (by simp))
          (by
            intro x hx y hy
            rcases List.mem_append.mp hx with hx | hx
            · exact hle x hx y (by simp [hy])
            · simp only [List.mem_singleton] at hx
              subst hx
              exact hcmin y (by simp [hy]))
        rw [happ] at hres
        exact hres
      · -- swap the minimum into slot i
        have hmi_gt : i + 1 ≤ mi := by
          rcases hmi_range with he | ⟨h1, h2⟩
          · exact absurd he hmi_eq
          · omega
        set k := mi - i - 1 with hkdef
        have hkrest : k < rest.length := by
          simp at hsuf
          omega
        set b := rest.getD k 0 with hbdef
        have hbsome : rest[k]? = some b := getElem?_getD_of_lt rest k 0 hkrest
        have hdrop : rest.drop k = b :: rest.drop (k+1) := by
          obtain ⟨hlt2, hgetb⟩ := List.getElem?_eq_some.mp hbsome
          rw [List.drop_eq_getElem_cons hlt2, hgetb]
        have hrest : rest = rest.take k ++ b :: rest.drop (k+1) := by
          conv_lhs => rw [← List.take_append_drop k rest]
          rw [hdrop]
        set mid := rest.take k with hmiddef
        set post := rest.drop (k+1) with hpostdef
        have hmidlen : mid.length = k := by
          rw [hmiddef, List.length_take]
          omega
        have hmi_idx : mi = pre.length + 1 + mid.length := by
          rw [hmidlen, hpre]
          omega
        have hl_decomp : pre ++ c :: rest = pre ++ (c :: (mid ++ (b :: post))) := by
          rw [hrest]
        have hswap : swapIdx (pre ++ c :: rest) i mi = pre ++ (b :: (mid ++ (c :: post))) := by
          rw [hl_decomp, hmi_idx, ← hpre]
          exact swapIdx_decomp pre mid post c b
        have hstep : selPass n (pre ++ c :: rest) i = pre ++ (b :: (mid ++ (c :: post))) := by
          rw [hsel, if_pos hmi_eq, hswap]
        rw [hstep]
        have hgetmi : (pre ++ c :: rest).getD mi 0 = b := by
          have harr : pre ++ c :: rest = (pre ++ (c :: mid)) ++ (b :: post) := by
            rw [hrest]
            simp
          have hlen3 : (pre ++ (c :: mid)).length = mi := by
            simp only [List.length_append, List.length_cons]
            omega
          rw [harr, List.getD_eq_getElem?_getD, ← hlen3, getElem?_append_mid]
          rfl
        have hbmin : ∀ y ∈ c :: rest, b ≤ y := by
          intro y hy
          have := hminle y hy
          rw [hgetmi] at this
          exact this
        have hbmem : b ∈ c :: rest := by
          rw [hrest]
          simp
        have hsub : ∀ y ∈ mid ++ (c :: post), y ∈ c :: rest := by
          intro y hy
          rw [hrest]
          rcases List.mem_append.mp hy with hy | hy
          · simp [hy]
          · rcases List.mem_cons.mp hy with rfl | hy
            · simp
            · simp [hy]
        have hrestlen : rest.length = mid.length + post.length + 1 := by
          have hc := congrArg List.length hrest
          simp only [List.length_append, List.length_cons] at hc
          omega
        have hres := ih n (i+1) (pre ++ [b]) (mid ++ (c :: post)) (by omega)
          (by simp; omega)
          (by
            simp only [List.length_append, List.length_cons]
            simp only [List.length_cons] at hsuf
            omega)
          (by
            rw [List.Sorted, List.pairwise_append]
            refine ⟨hsorted, by simp, ?_⟩
            intro a ha b2 hb2
            simp only [List.mem_singleton] at hb2
            subst hb2
            exact hle a ha b hbmem)
          (by
            intro x hx y hy
            rcases List.mem_append.mp hx with hx | hx
            · exact hle x hx y (hsub y hy)
            · simp only [List.mem_singleton] at hx
              subst hx
              exact hbmin y (hsub y hy))
        have happ2 : (pre ++ [b]) ++ (mid ++ (c :: post)) = pre ++ (b :: (mid ++ (c :: post))) := by
          simp
        rw [happ2] at hres
        obtain ⟨hres_sorted, hres_perm⟩ := hres
        refine ⟨hres_sorted, ?_⟩
        refine hres_perm.trans ?_
        have hp := swap_perm pre mid post c b
        refine hp.symm.trans ?_
        rw [← hl_decomp]

theorem selPass_length (n : Nat) (l : List Int) (i : Nat) :
    (selPass n l i).length = l.length := by
  have h : selPass n l i =
      (if ((List.range' (i+1) (n - i - 1)).foldl (selMin l) i) ≠ i
        then swapIdx l i ((List.range' (i+1) (n - i - 1)).foldl (selMin l) i)
        else l) := rfl
  rw [h]
  split
  · generalize (List.range' (i+1) (n - i - 1)).foldl (selMin l) i = m
    unfold swapIdx
    cases h1 : l[i]? with
    | none => simp
    | some a =>
      cases h2 : l[m]? with
      | none => simp [h1, h2]
      | some b => simp [h1, h2]
  · rfl

theorem selVals_sorted_perm (l : List Int) (hne : l ≠ []) :
    List.Sorted (· ≤ ·) (selVals l) ∧ (selVals l).Perm l := by
  have hlen : 1 ≤ l.length := List.length_pos.mpr hne
  have h := selPass_fold_inv (l.length - 1) l.length 0 [] l
    (by omega) rfl (by omega) (by simp) (by simp)
  rw [selVals, List.range_eq_range']
  simpa using h

end AlgoViz
namespace AlgoViz

/-! Tracking both values and statuses through the selection-sort embedding by
viewing the copy as a zip of a value list with a status list. -/

theorem zip_mk_getElem? (vals : List Int) :
    ∀ (sts : List Status) (p : Nat),
      (List.zipWith Item.mk vals sts)[p]? =
        match vals[p]?, sts[p]? with
        | some v, some s => some ⟨v, s⟩
        | _, _ => none := by
  induction vals with
  | nil => intro sts p; simp
  | cons v vt ih =>
    intro sts p
    cases sts with
    | nil => simp
    | cons s st =>
      cases p with
      | zero => simp
      | succ q => simp only [List.zipWith_cons_cons, List.getElem?_cons_succ, ih]

theorem zip_mk_set (vals : List Int) :
    ∀ (sts : List Status) (p : Nat) (v : Int) (s : Status),
      (List.zipWith Item.mk vals sts).set p ⟨v, s⟩ =
        List.zipWith Item.mk (vals.set p v) (sts.set p s) := by
  induction vals with
  | nil => intro sts p v s; simp
  | cons a vt ih =>
    intro sts p v s
    cases sts with
    | nil => simp
    | cons b st =>
      cases p with
      | zero => simp [List.set]
      | succ q =>
        simp only [List.zipWith_cons_cons, List.set, ih]

theorem zip_mk_map_value (vals : List Int) :
    ∀ (sts : List Status), vals.length = sts.length →
      (List.zipWith Item.mk vals sts).map Item.value = vals := by
  induction vals with
  | nil => intro sts _; simp
  | cons a vt ih =>
    intro sts hlen
    cases sts with
    | nil => simp at hlen
    | cons b st =>
      simp only [List.zipWith_cons_cons, List.map_cons, List.length_cons] at hlen ⊢
      rw [ih st (by omega)]

theorem zip_mk_length (vals : List Int) (sts : List Status) (hlen : vals.length = sts.length) :
    (List.zipWith Item.mk vals sts).length = vals.length := by
  rw [List.length_zipWith]
  omega

theorem stsPat_length (n : Nat) (f : Nat → Status) : (stsPat n f).length = n := by
  simp [stsPat]

theorem stsPat_getElem? (n : Nat) (f : Nat → Status) (p : Nat) :
    (stsPat n f)[p]? = if p < n then some (f p) else none := by
  unfold stsPat
  rw [List.getElem?_map]
  by_cases hp : p < n
  · rw [List.getElem?_range hp, if_pos hp]
    rfl
  · rw [if_neg hp]
    have h : (List.range n)[p]? = none := by
      rw [List.getElem?_eq_none_iff, List.length_range]
      omega
    rw [h]
    rfl

theorem stsPat_set (n : Nat) (f : Nat → Status) (j : Nat) (s : Status) :
    (stsPat n f).set j s = stsPat n (fun p => if p = j then s else f p) := by
  apply List.ext_getElem?
  intro p
  rw [List.getElem?_set]
  by_cases hjp : j = p
  · subst hjp
    by_cases hn : j < n
    · rw [if_pos rfl, if_pos (by rw [stsPat_length]; exact hn)]
      rw [stsPat_getElem?, if_pos hn]
      simp
    · rw [if_pos rfl, if_neg (by rw [stsPat_length]; exact hn)]
      rw [stsPat_getElem?, if_neg hn]
  · rw [if_neg hjp, stsPat_getElem?, stsPat_getElem?]
    by_cases hp : p < n
    · rw [if_pos hp, if_pos hp]
      have hne : p ≠ j := fun h => hjp h.symm
      rw [if_neg hne]
    · rw [if_neg hp, if_neg hp]

theorem stsPat_congr (n : Nat) (f g : Nat → Status) (h : ∀ p, p < n → f p = g p) :
    stsPat n f = stsPat n g := by
  unfold stsPat
  apply List.map_congr_left
  intro p hp
  exact h p (List.mem_range.mp hp)

theorem setSt_zip (vals : List Int) (sts : List Status) (p : Nat) (s : Status)
    (hlen : vals.length = sts.length) :
    setSt (List.zipWith Item.mk vals sts) p s =
      List.zipWith Item.mk vals (sts.set p s) := by
  cases hp : (List.zipWith Item.mk vals sts)[p]? with
  | none =>
    rw [setSt_eq_none _ _ _ hp]
    have hlen2 : (List.zipWith Item.mk vals sts).length = vals.length :=
      zip_mk_length vals sts hlen
    have hge : vals.length ≤ p := by
      have := List.getElem?_eq_none_iff.mp hp
      omega
    rw [List.set_eq_of_length_le (by omega)]
  | some it =>
    have hp' := hp
    rw [zip_mk_getElem?] at hp'
    cases hv : vals[p]? with
    | none => rw [hv] at hp'; simp at hp'
    | some v0 =>
      cases hs : sts[p]? with
      | none => rw [hv, hs] at hp'; simp at hp'
      | some s0 =>
        rw [hv, hs] at hp'
        simp only [Option.some_inj] at hp'
        rw [setSt_eq_some _ _ _ s hp, ← hp']
        rw [zip_mk_set]
        rw [set_getElem?_self vals p v0 hv]

theorem mark_zip (st : SortState) (vals : List Int) (sts : List Status) (p : Nat) (s : Status)
    (hlen : vals.length = sts.length)
    (hcopy : st.copy = List.zipWith Item.mk vals sts) :
    (st.mark p s).copy = List.zipWith Item.mk vals (sts.set p s) := by
  rw [mark_copy, hcopy, setSt_zip _ _ _ _ hlen]

theorem selMin_cases (l : List Int) (mi j : Nat) :
    selMin l mi j = j ∨ selMin l mi j = mi := by
  unfold selMin
  cases l[j]? with
  | none => right; rfl
  | some a =>
    cases l[mi]? with
    | none => right; rfl
    | some b =>
      by_cases h : a < b
      · left
        simp only [if_pos h]
      · right
        simp only [if_neg h]

theorem selMin_getD (l : List Int) (mi j : Nat) (hj : j < l.length) (hmi : mi < l.length) :
    selMin l mi j = if l.getD j 0 < l.getD mi 0 then j else mi := by
  unfold selMin
  rw [getElem?_getD_of_lt l j 0 hj, getElem?_getD_of_lt l mi 0 hmi]

end AlgoViz
namespace AlgoViz

/-- Unfolding of the selection inner-loop body at an explicit state/minIndex
pair. -/
theorem selBody_pair (i : Nat) (st : SortState) (mi j : Nat) :
    selBody i (st, mi) j =
      (match ((st.mark j .comparing).push).copy[j]?,
          ((st.mark j .comparing).push).copy[mi]? with
       | some cj, some cm =>
         if cj.value < cm.value then
           ((if mi ≠ i then ((st.mark j .comparing).push).mark mi .default
              else (st.mark j .comparing).push).push, j)
         else ((((st.mark j .comparing).push).mark j .default).push, mi)
       | _, _ => (((st.mark j .comparing).push).push, mi)) := rfl

/-- Reduction of the inner-loop body once both reads are known. -/
theorem selBody_red (i : Nat) (st : SortState) (mi j : Nat) (vj vmi : Int)
    (hgj : ((st.mark j .comparing).push).copy[j]? = some ⟨vj, .comparing⟩)
    (hgmi : ((st.mark j .comparing).push).copy[mi]? = some ⟨vmi, .comparing⟩) :
    selBody i (st, mi) j =
      (if vj < vmi then
        ((if mi ≠ i then ((st.mark j .comparing).push).mark mi .default
           else (st.mark j .comparing).push).push, j)
       else ((((st.mark j .comparing).push).mark j .default).push, mi)) := by
  rw [selBody_pair, hgj, hgmi]

theorem selBody_zip (n i mi j : Nat) (vals : List Int) (st : SortState)
    (hlen : vals.length = n)
    (hcopy : st.copy = List.zipWith Item.mk vals (stsPat n (selStsInner i mi)))
    (hij : i < j) (hjn : j < n) (hmij : mi < j) (himi : i ≤ mi) :
    (selBody i (st, mi) j).1.copy =
        List.zipWith Item.mk vals (stsPat n (selStsInner i (selMin vals mi j))) ∧
      (selBody i (st, mi) j).2 = selMin vals mi j := by
  have hplen : vals.length = (stsPat n (selStsInner i mi)).length := by
    rw [stsPat_length]; exact hlen
  have hcopy1 : ((st.mark j .comparing).push).copy =
      List.zipWith Item.mk vals (stsPat n (fun p => if p = j then .comparing
        else selStsInner i mi p)) := by
    rw [push_copy, mark_zip st vals _ j .comparing hplen hcopy, stsPat_set]
  have hplen1 : vals.length =
      (stsPat n (fun p => if p = j then Status.comparing
        else selStsInner i mi p)).length := by
    rw [stsPat_length]; exact hlen
  have hvj : vals[j]? = some (vals.getD j 0) := getElem?_getD_of_lt vals j 0 (by omega)
  have hvmi : vals[mi]? = some (vals.getD mi 0) := getElem?_getD_of_lt vals mi 0 (by omega)
  have hgj : ((st.mark j .comparing).push).copy[j]? =
      some ⟨vals.getD j 0, .comparing⟩ := by
    rw [hcopy1, zip_mk_getElem?, hvj, stsPat_getElem?]
    simp [hjn]
  have hgmi : ((st.mark j .comparing).push).copy[mi]? =
      some ⟨vals.getD mi 0, .comparing⟩ := by
    rw [hcopy1, zip_mk_getElem?, hvmi, stsPat_getElem?]
    have h1 : mi < n := by omega
    have h2 : ¬ mi = j := by omega
    have h3 : ¬ mi < i := by omega
    simp [selStsInner, h1, h2, h3]
  have hmin := selMin_getD vals mi j (by omega) (by omega)
  by_cases hlt : vals.getD j 0 < vals.getD mi 0
  · have hminj : selMin vals mi j = j := by rw [hmin, if_pos hlt]
    by_cases hmi_eq : mi = i
    · have hsel : selBody i (st, mi) j = (((st.mark j .comparing).push).push, j) := by
        rw [selBody_red i st mi j _ _ hgj hgmi, if_pos hlt, if_neg (by simp [hmi_eq])]
      rw [hsel, hminj]
      refine ⟨?_, rfl⟩
      rw [push_copy, hcopy1]
      congr 1
      apply stsPat_congr
      intro p hp
      by_cases h1 : p = j
      · rw [if_pos h1, h1]
        have hx : ¬ j < i := by omega
        simp [selStsInner, hx]
      · rw [if_neg h1, hmi_eq]
        unfold selStsInner
        by_cases h2 : p < i
        · rw [if_pos h2, if_pos h2]
        · rw [if_neg h2, if_neg h2]
          by_cases h3 : p = i
          · simp [h3]
          · simp [h3, h1]
    · have hsel : selBody i (st, mi) j =
          ((((st.mark j .comparing).push).mark mi .default).push, j) := by
        rw [selBody_red i st mi j _ _ hgj hgmi, if_pos hlt, if_pos hmi_eq]
      rw [hsel, hminj]
      refine ⟨?_, rfl⟩
      rw [push_copy, mark_zip _ vals _ mi .default hplen1 hcopy1, stsPat_set]
      congr 1
      apply stsPat_congr
      intro p hp
      by_cases h1 : p = mi
      · rw [if_pos h1]
        have hx1 : ¬ p < i := by omega
        have hx2 : ¬ p = i := by omega
        have hx3 : ¬ p = j := by omega
        simp [selStsInner, hx1, hx2, hx3]
      · rw [if_neg h1]
        by_cases h2 : p = j
        · rw [if_pos h2, h2]
          have hx : ¬ j < i := by omega
          simp [selStsInner, hx]
        · rw [if_neg h2]
          unfold selStsInner
          by_cases h3 : p < i
          · rw [if_pos h3, if_pos h3]
          · rw [if_neg h3, if_neg h3]
            by_cases h4 : p = i
            · simp [h4]
            · simp [h4, h1, h2]
  · have hminj : selMin vals mi j = mi := by rw [hmin, if_neg hlt]
    have hsel : selBody i (st, mi) j =
        ((((st.mark j .comparing).push).mark j .default).push, mi) := by
      rw [selBody_red i st mi j _ _ hgj hgmi, if_neg hlt]
    rw [hsel, hminj]
    refine ⟨?_, rfl⟩
    rw [push_copy, mark_zip _ vals _ j .default hplen1 hcopy1, stsPat_set]
    congr 1
    apply stsPat_congr
    intro p hp
    by_cases h1 : p = j
    · rw [if_pos h1, h1]
      have hx1 : ¬ j < i := by omega
      have hx2 : ¬ j = i := by omega
      have hx3 : ¬ j = mi := by omega
      simp [selStsInner, hx1, hx2, hx3]
    · rw [if_neg h1, if_neg h1]

theorem selInner_fold_zip (n i : Nat) (vals : List Int) (hlen : vals.length = n) :
    ∀ (cnt s mi : Nat) (st : SortState),
      st.copy = List.zipWith Item.mk vals (stsPat n (selStsInner i mi)) →
      s + cnt ≤ n → i < s → mi < s → i ≤ mi →
      (((List.range' s cnt).foldl (selBody i) (st, mi)).1.copy =
          List.zipWith Item.mk vals (stsPat n (selStsInner i
            ((List.range' s cnt).foldl (selMin vals) mi))) ∧
        ((List.range' s cnt).foldl (selBody i) (st, mi)).2 =
          (List.range' s cnt).foldl (selMin vals) mi) := by
  intro cnt
  induction cnt with
  | zero =>
    intro s mi st hcopy _ _ _ _
    simp only [List.range'_zero, List.foldl_nil]
    exact ⟨hcopy, by simp⟩
  | succ k ih =>
    intro s mi st hcopy hbound his hmis himi
    rw [List.range'_succ]
    simp only [List.foldl_cons]
    have hstep := selBody_zip n i mi s vals st hlen hcopy his (by omega) hmis himi
    obtain ⟨hc1, hc2⟩ := hstep
    have hpair : selBody i (st, mi) s =
        ((selBody i (st, mi) s).1, selMin vals mi s) := by
      rw [← hc2]
    rw [hpair]
    have hmi2 : selMin vals mi s < s + 1 := by
      rcases selMin_cases vals mi s with h | h <;> omega
    have himi2 : i ≤ selMin vals mi s := by
      rcases selMin_cases vals mi s with h | h <;> omega
    exact ih (s+1) (selMin vals mi s) ((selBody i (st, mi) s).1) hc1
      (by omega) (by omega) hmi2 himi2

end AlgoViz
namespace AlgoViz

theorem stsPat_getD (n : Nat) (f : Nat → Status) (p : Nat) (hp : p < n) :
    (stsPat n f).getD p .default = f p := by
  rw [List.getD_eq_getElem?_getD, stsPat_getElem?, if_pos hp]
  rfl

theorem swapAt_copy_red (st : SortState) (a k : Nat) (x y : Item)
    (ha : st.copy[a]? = some x) (hk : st.copy[k]? = some y) :
    (st.swapAt a k).copy = (st.copy.set a y).set k x := by
  unfold SortState.swapAt
  rw [ha, hk]

theorem swapAt_zip (st : SortState) (vals : List Int) (sts : List Status) (a k : Nat)
    (hcopy : st.copy = List.zipWith Item.mk vals sts)
    (hlen : vals.length = sts.length) (ha : a < vals.length) (hk : k < vals.length) :
    (st.swapAt a k).copy = List.zipWith Item.mk
      ((vals.set a (vals.getD k 0)).set k (vals.getD a 0))
      ((sts.set a (sts.getD k .default)).set k (sts.getD a .default)) := by
  have hga : st.copy[a]? = some ⟨vals.getD a 0, sts.getD a .default⟩ := by
    rw [hcopy, zip_mk_getElem?, getElem?_getD_of_lt vals a 0 ha,
      getElem?_getD_of_lt sts a .default (by omega)]
  have hgk : st.copy[k]? = some ⟨vals.getD k 0, sts.getD k .default⟩ := by
    rw [hcopy, zip_mk_getElem?, getElem?_getD_of_lt vals k 0 hk,
      getElem?_getD_of_lt sts k .default (by omega)]
  rw [swapAt_copy_red st a k _ _ hga hgk, hcopy, zip_mk_set, zip_mk_set]

end AlgoViz

namespace AlgoViz

theorem selOuterBody_zip (n i : Nat) (vals : List Int) (st : SortState)
    (hlen : vals.length = n) (hi1 : i + 1 < n)
    (hcopy : st.copy = List.zipWith Item.mk vals (stsPat n (selStsOuter i))) :
    (selOuterBody n st i).copy =
      List.zipWith Item.mk (selPass n vals i) (stsPat n (selStsOuter (i+1))) := by
  have hlenP : ∀ f : Nat → Status, vals.length = (stsPat n f).length := fun f => by
    rw [stsPat_length]; exact hlen
  have hst1 : ((st.mark i .comparing).push).copy =
      List.zipWith Item.mk vals (stsPat n (selStsInner i i)) := by
    rw [push_copy, mark_zip st vals _ i .comparing (hlenP _) hcopy, stsPat_set]
    congr 1
    apply stsPat_congr
    intro p hp
    unfold selStsOuter selStsInner
    by_cases h1 : p = i
    · simp [h1]
    · rw [if_neg h1]
      by_cases h2 : p < i
      · simp [h2]
      · simp [h1, h2]
  have hinner := selInner_fold_zip n i vals hlen (n - i - 1) (i+1) i
    ((st.mark i .comparing).push) hst1 (by omega) (by omega) (by omega) (le_refl i)
  set mif := (List.range' (i+1) (n - i - 1)).foldl (selMin vals) i with hmifdef
  set q := (List.range' (i+1) (n - i - 1)).foldl (selBody i)
    (((st.mark i .comparing).push), i) with hqdef
  obtain ⟨hq1, hq2⟩ := hinner
  have hmifprops := selMin_foldl vals (n - i - 1) (i+1) i (by omega) (by omega)
  rw [← hmifdef] at hmifprops
  obtain ⟨hmif_lt, hmif_range, _⟩ := hmifprops
  rw [hlen] at hmif_lt
  have hselpassraw : selPass n vals i =
      if mif ≠ i then swapIdx vals i mif else vals := by
    rw [hmifdef]
    exact rfl
  simp only [selOuterBody]
  rw [← hqdef, hq2]
  by_cases hne : mif ≠ i
  · rw [if_pos hne, if_pos hne]
    have hmif_ge : i + 1 ≤ mif := by
      rcases hmif_range with he | ⟨h1, h2⟩
      · exact absurd he hne
      · omega
    have hA : ((q.1.mark i .swapping).mark mif .swapping).push.copy =
        List.zipWith Item.mk vals (stsPat n (fun p =>
          if p = mif then .swapping else if p = i then .swapping
          else selStsInner i mif p)) := by
      rw [push_copy, mark_zip _ vals _ mif .swapping (hlenP _)
        (by rw [mark_zip _ vals _ i .swapping (hlenP _) hq1, stsPat_set]), stsPat_set]
    have hsw := swapAt_zip (((q.1.mark i .swapping).mark mif .swapping).push) vals
      (stsPat n (fun p => if p = mif then .swapping else if p = i then .swapping
        else selStsInner i mif p)) i mif hA (hlenP _) (by omega) (by omega)
    have hgi : (stsPat n (fun p => if p = mif then Status.swapping
        else if p = i then Status.swapping else selStsInner i mif p)).getD i .default =
        .swapping := by
      rw [stsPat_getD _ _ i (by omega)]
      have h1 : ¬ i = mif := by omega
      simp [h1]
    have hgm : (stsPat n (fun p => if p = mif then Status.swapping
        else if p = i then Status.swapping else selStsInner i mif p)).getD mif .default =
        .swapping := by
      rw [stsPat_getD _ _ mif (by omega)]
      simp
    rw [hgi, hgm] at hsw
    have hstsfix : ((stsPat n (fun p => if p = mif then Status.swapping
        else if p = i then Status.swapping else selStsInner i mif p)).set i
          Status.swapping).set mif Status.swapping =
        stsPat n (fun p => if p = mif then Status.swapping
          else if p = i then Status.swapping else selStsInner i mif p) := by
      rw [stsPat_set, stsPat_set]
      apply stsPat_congr
      intro p hp
      by_cases h1 : p = mif
      · simp [h1]
      · by_cases h2 : p = i
        · simp [h1, h2]
        · simp [h1, h2]
    rw [hstsfix] at hsw
    have hvlen : ((vals.set i (vals.getD mif 0)).set mif (vals.getD i 0)).length = n := by
      simp only [List.length_set]
      exact hlen
    have hvlenP : ∀ f : Nat → Status,
        ((vals.set i (vals.getD mif 0)).set mif (vals.getD i 0)).length =
          (stsPat n f).length := fun f => by
      rw [stsPat_length]
      exact hvlen
    have hB : ((((q.1.mark i .swapping).mark mif .swapping).push).swapAt i mif).push.copy =
        List.zipWith Item.mk ((vals.set i (vals.getD mif 0)).set mif (vals.getD i 0))
          (stsPat n (fun p => if p = mif then Status.swapping
            else if p = i then Status.swapping else selStsInner i mif p)) := by
      rw [push_copy, hsw]
    have hC : (((((q.1.mark i .swapping).mark mif .swapping).push).swapAt i
        mif).push.mark i .sorted).copy =
        List.zipWith Item.mk ((vals.set i (vals.getD mif 0)).set mif (vals.getD i 0))
          (stsPat n (fun p => if p = i then Status.sorted
            else if p = mif then Status.swapping
            else if p = i then Status.swapping else selStsInner i mif p)) := by
      rw [mark_zip _ _ _ i .sorted (hvlenP _) hB, stsPat_set]
    have hD : ((((((q.1.mark i .swapping).mark mif .swapping).push).swapAt i
        mif).push.mark i .sorted).mark mif .default).push.copy =
        List.zipWith Item.mk ((vals.set i (vals.getD mif 0)).set mif (vals.getD i 0))
          (stsPat n (selStsOuter (i+1))) := by
      rw [push_copy, mark_zip _ _ _ mif .default (hvlenP _) hC, stsPat_set]
      congr 1
      apply stsPat_congr
      intro p hp
      unfold selStsOuter selStsInner
      by_cases h1 : p = mif
      · have h2 : ¬ mif < i + 1 := by omega
        simp [h1, h2]
      · by_cases h2 : p = i
        · have h3 : i < i + 1 := by omega
          have h4 : ¬ i = mif := by omega
          simp [h1, h2, h3, h4]
        · by_cases h3 : p < i
          · have h4 : p < i + 1 := by omega
            simp [h1, h2, h3, h4]
          · have h4 : ¬ p < i + 1 := by omega
            simp [h1, h2, h3, h4]
    rw [hD]
    congr 1
    rw [hselpassraw, if_pos hne]
    rw [swapIdx_eq vals i mif (vals.getD i 0) (vals.getD mif 0)
      (getElem?_getD_of_lt vals i 0 (by omega)) (getElem?_getD_of_lt vals mif 0 (by omega))]
  · rw [if_neg hne, if_neg hne]
    have hmif_eq : mif = i := by omega
    have hfinal : ((q.1.mark i .sorted)).push.copy =
        List.zipWith Item.mk vals (stsPat n (selStsOuter (i+1))) := by
      rw [push_copy, mark_zip _ vals _ i .sorted (hlenP _) hq1, stsPat_set]
      congr 1
      apply stsPat_congr
      intro p hp
      unfold selStsOuter selStsInner
      by_cases h1 : p = i
      · have h2 : p < i + 1 := by omega
        simp [h1, h2]
      · rw [if_neg h1]
        by_cases h2 : p < i
        · have h3 : p < i + 1 := by omega
          simp [h2, h3]
        · have h3 : ¬ p < i + 1 := by omega
          simp [h1, h2, h3, hmif_eq]
    rw [hfinal]
    congr 1
    rw [hselpassraw, if_neg hne]

end AlgoViz
namespace AlgoViz

theorem selOuter_fold_zip (n : Nat) :
    ∀ (cnt i : Nat) (vals : List Int) (st : SortState),
      vals.length = n → i + cnt + 1 = n →
      st.copy = List.zipWith Item.mk vals (stsPat n (selStsOuter i)) →
      ((List.range' i cnt).foldl (selOuterBody n) st).copy =
        List.zipWith Item.mk ((List.range' i cnt).foldl (selPass n) vals)
          (stsPat n (selStsOuter (i + cnt))) := by
  intro cnt
  induction cnt with
  | zero =>
    intro i vals st hlen _ hcopy
    simpa using hcopy
  | succ k ih =>
    intro i vals st hlen hn hcopy
    rw [List.range'_succ]
    simp only [List.foldl_cons]
    have hstep := selOuterBody_zip n i vals st hlen (by omega) hcopy
    have hres := ih (i+1) (selPass n vals i) (selOuterBody n st i)
      (by rw [selPass_length]; exact hlen) (by omega) hstep
    rw [hres]
    have harith : i + 1 + k = i + (k + 1) := by omega
    rw [harith]

theorem stsPat_const_sorted (n : Nat) :
    stsPat n (fun _ => Status.sorted) = List.replicate n Status.sorted := by
  unfold stsPat
  rw [List.map_const', List.length_range]

theorem zip_replicate_sorted (vals : List Int) :
    ∀ (n : Nat), vals.length = n →
      List.zipWith Item.mk vals (List.replicate n Status.sorted) =
        vals.map (fun v => ⟨v, .sorted⟩) := by
  induction vals with
  | nil => intro n _; simp
  | cons a t ih =>
    intro n hlen
    cases n with
    | zero => simp at hlen
    | succ m =>
      simp only [List.replicate, List.zipWith_cons_cons, List.map_cons]
      rw [ih m (by simpa using hlen)]

theorem zip_const_default (vals : List Int) :
    ∀ (n : Nat), vals.length = n →
      List.zipWith Item.mk vals (stsPat n (selStsOuter 0)) =
        vals.map (fun v => ⟨v, .default⟩) := by
  have hpat : ∀ n, stsPat n (selStsOuter 0) = List.replicate n Status.default := by
    intro n
    have h : stsPat n (selStsOuter 0) = stsPat n (fun _ => Status.default) := by
      apply stsPat_congr
      intro p _
      unfold selStsOuter
      simp
    rw [h]
    unfold stsPat
    rw [List.map_const', List.length_range]
  induction vals with
  | nil => intro n _; simp
  | cons a t ih =>
    intro n hlen
    cases n with
    | zero => simp at hlen
    | succ m =>
      rw [hpat (m+1)]
      simp only [List.replicate, List.zipWith_cons_cons, List.map_cons]
      have := ih m (by simpa using hlen)
      rw [hpat m] at this
      rw [this]

/-- The selection-sort step generator on a non-empty input returns a log whose
final snapshot is the value-level selection-sort result with every status
sorted. -/
theorem selectionSortSteps_getLast (input : List Int) (hne : input ≠ []) :
    ∃ log, selectionSortSteps input = some log ∧
      log.getLast? = some ((selVals input).map (fun v => ⟨v, .sorted⟩)) := by
  have hpos : 1 ≤ input.length := List.length_pos.mpr hne
  have hinit : (initSortState input).copy =
      List.zipWith Item.mk input (stsPat input.length (selStsOuter 0)) := by
    unfold initSortState
    rw [zip_const_default input input.length rfl]
  have hfold := selOuter_fold_zip input.length (input.length - 1) 0 input
    (initSortState input) rfl (by omega) hinit
  set st1 := (List.range' 0 (input.length - 1)).foldl (selOuterBody input.length)
    (initSortState input) with hst1def
  have hrange : List.range (input.length - 1) = List.range' 0 (input.length - 1) :=
    List.range_eq_range' _
  have hvals : (List.range' 0 (input.length - 1)).foldl (selPass input.length) input =
      selVals input := by
    rw [selVals, hrange]
  rw [hvals] at hfold
  have hsellen : (selVals input).length = input.length := by
    have := (selVals_sorted_perm input hne).2
    exact this.length_eq
  have hget : st1.copy[input.length - 1]? =
      some ⟨(selVals input).getD (input.length - 1) 0, Status.default⟩ := by
    rw [hfold, zip_mk_getElem?,
      getElem?_getD_of_lt (selVals input) (input.length - 1) 0 (by omega),
      stsPat_getElem?]
    have h1 : input.length - 1 < input.length := by omega
    have h2 : ¬ input.length - 1 < 0 + (input.length - 1) := by omega
    simp [selStsOuter, h1, h2]
  have hred : selectionSortSteps input =
      match st1.copy[input.length - 1]? with
      | none => none
      | some _ =>
        some ((List.zipWith Item.mk input
            ((st1.mark (input.length - 1) .sorted).push).origStatus) ::
          ((st1.mark (input.length - 1) .sorted).push).snaps) := by
    rw [selectionSortSteps, hst1def, hrange]
  rw [hget] at hred
  refine ⟨_, hred, ?_⟩
  have hlenP : (selVals input).length = (stsPat input.length (selStsOuter 0)).length := by
    rw [stsPat_length]
    exact hsellen
  have hmarked : ((st1.mark (input.length - 1) .sorted).push).copy =
      (selVals input).map (fun v => ⟨v, .sorted⟩) := by
    rw [push_copy, mark_zip st1 (selVals input) _ (input.length - 1) .sorted
      (by rw [stsPat_length]; exact hsellen) hfold, stsPat_set]
    have hpat : stsPat input.length (fun p => if p = input.length - 1 then Status.sorted
        else selStsOuter (0 + (input.length - 1)) p) =
        List.replicate input.length Status.sorted := by
      rw [← stsPat_const_sorted]
      apply stsPat_congr
      intro p hp
      by_cases h1 : p = input.length - 1
      · rw [if_pos h1]
      · rw [if_neg h1]
        unfold selStsOuter
        rw [if_pos (show p < 0 + (input.length - 1) by omega)]
    rw [hpat, zip_replicate_sorted (selVals input) input.length hsellen]
  have hsnaps : ((st1.mark (input.length - 1) .sorted).push).snaps =
      (st1.mark (input.length - 1) .sorted).snaps ++
        [((st1.mark (input.length - 1) .sorted)).copy] := push_snaps _
  rw [hsnaps]
  have hcopyeq : ((st1.mark (input.length - 1) .sorted)).copy =
      (selVals input).map (fun v => ⟨v, .sorted⟩) := by
    have := hmarked
    rw [push_copy] at this
    exact this
  rw [hcopyeq, getLast?_cons_concat]

/-- Selection sort (part_005): on every non-empty input the final step of the
log is a non-decreasing permutation of the input with every status sorted. -/
theorem selection_final (input : List Int) (hne : input ≠ []) :
    ∃ log last, selectionSortSteps input = some log ∧
      log.getLast? = some last ∧
      (last.map Item.value).Perm input ∧
      List.Sorted (· ≤ ·) (last.map Item.value) ∧
      ∀ it ∈ last, it.status = Status.sorted := by
  obtain ⟨log, hlog, hlast⟩ := selectionSortSteps_getLast input hne
  refine ⟨log, (selVals input).map (fun v => ⟨v, .sorted⟩), hlog, hlast, ?_, ?_, ?_⟩
  · have h : ((selVals input).map (fun v => (⟨v, Status.sorted⟩ : Item))).map Item.value
        = selVals input := by
      rw [List.map_map]
      have hid : (Item.value ∘ fun v => (⟨v, Status.sorted⟩ : Item)) = id := rfl
      rw [hid, List.map_id]
    rw [h]
    exact (selVals_sorted_perm input hne).2
  · have h : ((selVals input).map (fun v => (⟨v, Status.sorted⟩ : Item))).map Item.value
        = selVals input := by
      rw [List.map_map]
      have hid : (Item.value ∘ fun v => (⟨v, Status.sorted⟩ : Item)) = id := rfl
      rw [hid, List.map_id]
    rw [h]
    exact (selVals_sorted_perm input hne).1
  · intro it hit
    simp only [List.mem_map] at hit
    obtain ⟨v, _, rfl⟩ := hit
    rfl

end AlgoViz
namespace AlgoViz

/-! Hash-table lemmas. -/

theorem hash_fold_mod (m : Nat) (f : Nat × Nat → Nat) :
    ∀ (l : List (Nat × Nat)) (a : Nat),
      l.foldl (fun h p => (h + f p) % m) (a % m) = (a + (l.map f).sum) % m := by
  intro l
  induction l with
  | nil => intro a; simp
  | cons p t ih =>
    intro a
    simp only [List.foldl_cons, List.map_cons, List.sum_cons]
    rw [Nat.mod_add_mod, ih (a + f p)]
    congr 1
    omega

theorem hashFunction_eq_sum_mod (m : Nat) (key : List Nat) :
    hashFunction m key = (key.enum.map (fun p => p.2 * (p.1 + 1))).sum % m := by
  unfold hashFunction
  have h0 : (0 : Nat) = 0 % m := by rw [Nat.zero_mod]
  rw [h0, hash_fold_mod m (fun p => p.2 * (p.1 + 1)) key.enum 0]
  rw [Nat.zero_add]

theorem hash_fold_lt (m : Nat) (hm : 0 < m) (f : Nat × Nat → Nat) :
    ∀ (l : List (Nat × Nat)) (a : Nat), a < m →
      l.foldl (fun h p => (h + f p) % m) a < m := by
  intro l
  induction l with
  | nil => intro a ha; simpa using ha
  | cons p t ih =>
    intro a _
    simp only [List.foldl_cons]
    exact ih _ (Nat.mod_lt _ hm)

theorem hashFunction_lt (m : Nat) (hm : 0 < m) (key : List Nat) :
    hashFunction m key < m :=
  hash_fold_lt m hm _ key.enum 0 hm

theorem findIdx?_of_any (p : HashEntry → Bool) :
    ∀ (l : List HashEntry) (i : Nat), l.any p = true →
      ∃ idx, l.findIdx? p i = some idx := by
  intro l
  induction l with
  | nil => intro i h; simp at h
  | cons a t ih =>
    intro i h
    rw [List.findIdx?_cons]
    by_cases hpa : p a = true
    · exact ⟨i, by rw [if_pos hpa]⟩
    · rw [if_neg hpa]
      simp only [List.any_cons, Bool.or_eq_true] at h
      rcases h with h | h
    
      · exact absurd h hpa
      · exact ih (i+1) h

theorem getD_map_bucket (bs : List (List HashEntry)) (F : List HashEntry → List HashEntry)
    (bi : Nat) (hbi : bi < bs.length) :
    (bs.map F).getD bi [] = F (bs.getD bi []) := by
  rw [List.getD_eq_getElem?_getD, List.getD_eq_getElem?_getD, List.getElem?_map]
  rw [getElem?_getD_of_lt bs bi [] hbi]
  rfl

theorem any_key_map (l : List HashEntry) (g : HashEntry → HStatus) (k : List Nat) :
    ((l.map (fun e => (⟨e.key, e.value, g e⟩ : HashEntry))).any (fun e => decide (e.key = k)))
      = l.any (fun e => decide (e.key = k)) := by
  induction l with
  | nil => rfl
  | cons a t ih => simp only [List.map_cons, List.any_cons, ih]

end AlgoViz
namespace AlgoViz

theorem getElem?_set_self {α : Type} (l : List α) (i : Nat) (a : α) (h : i < l.length) :
    (l.set i a)[i]? = some a := by
  rw [List.getElem?_set, if_pos rfl, if_pos h]

theorem handleSearch_found (m : Nat) (st : HashState) (k : List Nat) (hk : ¬ k = [])
    (hmem : (st.buckets.getD (hashFunction m k) []).any (fun e => e.key = k) = true) :
    (handleSearch m st k).2 = some (hashFunction m k) := by
  have hbi : hashFunction m k < st.buckets.length := by
    by_contra hge
    have hnone : st.buckets.getD (hashFunction m k) [] = [] := by
      rw [List.getD_eq_getElem?_getD, List.getElem?_eq_none_iff.mpr (by omega)]
      rfl
    rw [hnone] at hmem
    simp at hmem
  have hb1 : (st.buckets.map (fun b => b.map (fun e =>
      (⟨e.key, e.value, if 1 < b.length then HStatus.collision else .default⟩ :
        HashEntry)))).getD (hashFunction m k) [] =
      (st.buckets.getD (hashFunction m k) []).map (fun e =>
        (⟨e.key, e.value, if 1 < (st.buckets.getD (hashFunction m k) []).length
          then HStatus.collision else .default⟩ : HashEntry)) :=
    getD_map_bucket st.buckets _ (hashFunction m k) hbi
  have hlen1 : (st.buckets.map (fun b => b.map (fun e =>
      (⟨e.key, e.value, if 1 < b.length then HStatus.collision else .default⟩ :
        HashEntry)))).length = st.buckets.length := List.length_map _ _
  have htgt : ((st.buckets.map (fun b => b.map (fun e =>
      (⟨e.key, e.value, if 1 < b.length then HStatus.collision else .default⟩ :
        HashEntry)))).set (hashFunction m k)
        (((st.buckets.map (fun b => b.map (fun e =>
          (⟨e.key, e.value, if 1 < b.length then HStatus.collision else .default⟩ :
            HashEntry)))).getD (hashFunction m k) []).map (fun e =>
              (⟨e.key, e.value, HStatus.active⟩ : HashEntry)))).getD
        (hashFunction m k) [] =
      ((st.buckets.map (fun b => b.map (fun e =>
        (⟨e.key, e.value, if 1 < b.length then HStatus.collision else .default⟩ :
          HashEntry)))).getD (hashFunction m k) []).map (fun e =>
            (⟨e.key, e.value, HStatus.active⟩ : HashEntry)) := by
    rw [List.getD_eq_getElem?_getD, List.getElem?_set, if_pos rfl,
      if_pos (by omega)]
    rfl
  have hany : (((st.buckets.map (fun b => b.map (fun e =>
      (⟨e.key, e.value, if 1 < b.length then HStatus.collision else .default⟩ :
        HashEntry)))).set (hashFunction m k)
        (((st.buckets.map (fun b => b.map (fun e =>
          (⟨e.key, e.value, if 1 < b.length then HStatus.collision else .default⟩ :
            HashEntry)))).getD (hashFunction m k) []).map (fun e =>
              (⟨e.key, e.value, HStatus.active⟩ : HashEntry)))).getD
        (hashFunction m k) []).any (fun e => e.key = k) = true := by
    rw [htgt, hb1]
    rw [any_key_map, any_key_map]
    exact hmem
  obtain ⟨fi, hfi⟩ := findIdx?_of_any (fun e => decide (e.key = k)) _ 0 hany
  unfold handleSearch
  rw [if_neg hk]
  simp only [hfi]

/-- C2 supporting fact: a completed insert appends the key to the bucket at
its hash index. -/
theorem handleAddEntry_in_bucket (m : Nat) (st : HashState) (k : List Nat) (v : HVal)
    (st2 : HashState) (hm : 0 < m) (hblen : st.buckets.length = m)
    (hok : handleAddEntry m st k v = .ok st2) :
    (∃ b, st2.buckets[hashFunction m k]? = some b ∧
      b.any (fun e => e.key = k) = true) ∧
    st2.buckets.length = m ∧ k ≠ [] := by
  unfold handleAddEntry at hok
  by_cases hk : k = []
  · rw [if_pos hk] at hok
    exact absurd hok (by simp)
  · rw [if_neg hk] at hok
    by_cases hdup : st.entries.any (fun e => e.1 = k) = true
    · rw [if_pos hdup] at hok
      exact absurd hok (by simp)
    · rw [if_neg hdup] at hok
      simp only [AddResult.ok.injEq] at hok
      subst hok
      have hbi : hashFunction m k < st.buckets.length := by
        rw [hblen]
        exact hashFunction_lt m hm k
      refine ⟨⟨_, getElem?_set_self _ _ _ hbi, ?_⟩, by simp [hblen], hk⟩
      rw [any_key_map]
      by_cases hc : 1 < ((st.buckets.getD (hashFunction m k) []) ++
          [(⟨k, v, .active⟩ : HashEntry)]).length
      · rw [if_pos hc, any_key_map]
        simp
      · rw [if_neg hc]
        simp

/-- C2 supporting fact: the bucket at the hash index after a completed insert
also answers the membership used by search. -/
theorem handleAddEntry_then_search (m : Nat) (st : HashState) (k : List Nat) (v : HVal)
    (st2 : HashState) (hm : 0 < m) (hblen : st.buckets.length = m)
    (hok : handleAddEntry m st k v = .ok st2) :
    (handleSearch m st2 k).2 = some (hashFunction m k) := by
  obtain ⟨⟨b, hb, hbany⟩, hlen2, hk⟩ := handleAddEntry_in_bucket m st k v st2 hm hblen hok
  apply handleSearch_found m st2 k hk
  rw [List.getD_eq_getElem?_getD, hb]
  exact hbany

end AlgoViz
namespace AlgoViz

theorem wellMarked_iff (st : HashState) :
    wellMarked st = true ↔
      ∀ b ∈ st.buckets, 1 < b.length → ∀ e ∈ b, e.status = .collision := by
  unfold wellMarked
  rw [List.all_eq_true]
  constructor
  · intro h b hb hlen e he
    have h2 := h b hb
    simp only [Bool.or_eq_true, decide_eq_true_eq, List.all_eq_true, beq_iff_eq] at h2
    rcases h2 with h2 | h2
    · omega
    · exact h2 e he
  · intro h b hb
    simp only [Bool.or_eq_true, decide_eq_true_eq, List.all_eq_true, beq_iff_eq]
    by_cases hlen : b.length ≤ 1
    · exact Or.inl hlen
    · exact Or.inr (fun e he => h b hb (by omega) e he)

theorem wellMarked_addEntry (m : Nat) (st : HashState) (k : List Nat) (v : HVal)
    (st2 : HashState) (hwm : wellMarked st = true)
    (hok : handleAddEntry m st k v = .ok st2) : wellMarked st2 = true := by
  unfold handleAddEntry at hok
  by_cases hk : k = []
  · rw [if_pos hk] at hok
    exact absurd hok (by simp)
  · rw [if_neg hk] at hok
    by_cases hdup : st.entries.any (fun e => e.1 = k) = true
    · rw [if_pos hdup] at hok
      exact absurd hok (by simp)
    · rw [if_neg hdup] at hok
      simp only [AddResult.ok.injEq] at hok
      subst hok
      rw [wellMarked_iff]
      intro b hb hlen e he
      rcases List.mem_or_eq_of_mem_set hb with hold | hnew
      · exact (wellMarked_iff st).mp hwm b hold hlen e he
      · subst hnew
        simp only [List.mem_map] at he
        obtain ⟨e0, _, rfl⟩ := he
        simp only [List.length_map] at hlen
        have hpos : 1 < (if 1 < ((st.buckets.getD (hashFunction m k) []) ++
            [(⟨k, v, .active⟩ : HashEntry)]).length then
            ((st.buckets.getD (hashFunction m k) []) ++
              [(⟨k, v, .active⟩ : HashEntry)]).map
              (fun e => ⟨e.key, e.value, .collision⟩)
          else (st.buckets.getD (hashFunction m k) []) ++
            [(⟨k, v, .active⟩ : HashEntry)]).length := hlen
        rw [if_pos hpos]

theorem handleRemoveEntry_bucket_default (m : Nat) (st : HashState) (k : List Nat)
    (st2 : HashState) (hwm : wellMarked st = true)
    (hok : handleRemoveEntry m st k = .ok st2) :
    wellMarked st2 = true ∧
    (∀ b, st2.buckets[hashFunction m k]? = some b → b.length ≤ 1 →
      ∀ e ∈ b, e.status = .default) := by
  unfold handleRemoveEntry at hok
  cases hidx : st.entries.findIdx? (fun e => e.1 = k) with
  | none =>
    rw [hidx] at hok
    exact absurd hok (by simp)
  | some ix =>
    rw [hidx] at hok
    simp only [RemoveResult.ok.injEq] at hok
    subst hok
    constructor
    · rw [wellMarked_iff]
      intro b hb hlen e he
      rcases List.mem_or_eq_of_mem_set hb with hold | hnew
      · exact (wellMarked_iff st).mp hwm b hold hlen e he
      · subst hnew
        by_cases hc : ((st.buckets.getD (hashFunction m k) []).filter
            (fun e => e.key ≠ k)).length ≤ 1
        · rw [if_pos hc] at hlen
          rw [List.length_map] at hlen
          omega
        · rw [if_neg hc] at hlen he
          have hmemold : e ∈ st.buckets.getD (hashFunction m k) [] :=
            (List.mem_filter.mp he).1
          have hbi : hashFunction m k < st.buckets.length := by
            by_contra hge
            have hnil : st.buckets.getD (hashFunction m k) [] = [] := by
              rw [List.getD_eq_getElem?_getD, List.getElem?_eq_none_iff.mpr (by omega)]
              rfl
            rw [hnil] at hmemold
            simp at hmemold
          have holdmem : st.buckets.getD (hashFunction m k) [] ∈ st.buckets := by
            rw [List.getD_eq_getElem st.buckets [] hbi]
            exact List.getElem_mem hbi
          have hlenold : 1 < (st.buckets.getD (hashFunction m k) []).length := by
            have hfl := List.length_filter_le (fun e => e.key ≠ k)
              (st.buckets.getD (hashFunction m k) [])
            omega
          exact (wellMarked_iff st).mp hwm _ holdmem hlenold e hmemold
    · intro b hbget hble e he
      by_cases hbi : hashFunction m k < st.buckets.length
      · rw [getElem?_set_self _ _ _ hbi] at hbget
        have hb := Option.some_inj.mp hbget
        subst hb
        by_cases hc : ((st.buckets.getD (hashFunction m k) []).filter
            (fun e => e.key ≠ k)).length ≤ 1
        · rw [if_pos hc] at he
          simp only [List.mem_map] at he
          obtain ⟨e0, _, rfl⟩ := he
          rfl
        · rw [if_neg hc] at hble
          omega
      · have hnone : ((st.buckets.set (hashFunction m k)
            (if ((st.buckets.getD (hashFunction m k) []).filter
                (fun e => e.key ≠ k)).length ≤ 1 then
              ((st.buckets.getD (hashFunction m k) []).filter
                (fun e => e.key ≠ k)).map (fun e => ⟨e.key, e.value, .default⟩)
            else (st.buckets.getD (hashFunction m k) []).filter
              (fun e => e.key ≠ k))))[hashFunction m k]? = none := by
          rw [List.getElem?_eq_none_iff]
          simp only [List.length_set]
          omega
        rw [hnone] at hbget
        exact absurd hbget (by simp)

theorem handleAddEntry_dup (m : Nat) (st : HashState) (k : List Nat) (v : HVal)
    (hk : k ≠ []) (hdup : st.entries.any (fun e => e.1 = k) = true) :
    handleAddEntry m st k v = .duplicate ∧ applyAddEntry m st k v = st := by
  have h1 : handleAddEntry m st k v = .duplicate := by
    unfold handleAddEntry
    rw [if_neg hk, if_pos hdup]
  refine ⟨h1, ?_⟩
  unfold applyAddEntry
  rw [h1]

end AlgoViz
namespace AlgoViz

/-! Binary-search-tree lemmas. -/

theorem allT_imp (p q : Int → Bool) (himp : ∀ x, p x = true → q x = true) :
    ∀ t, allT p t = true → allT q t = true := by
  intro t
  induction t with
  | nil => intro _; rfl
  | node v h s l r ihl ihr =>
    intro ht
    simp only [allT, Bool.and_eq_true] at ht ⊢
    exact ⟨⟨himp v ht.1.1, ihl ht.1.2⟩, ihr ht.2⟩

theorem allT_minValD (p : Int → Bool) :
    ∀ (t : BTree) (d : Int), t ≠ .nil → allT p t = true → p (minValD t d) = true := by
  intro t
  induction t with
  | nil => intro d hne _; exact absurd rfl hne
  | node v h s l r ihl _ =>
    intro d _ ht
    simp only [allT, Bool.and_eq_true] at ht
    rw [minValD]
    cases l with
    | nil => rw [minValD]; exact ht.1.1
    | node lv lh ls ll lr =>
      exact ihl v (by intro hc; exact BTree.noConfusion hc) ht.1.2

theorem allT_deleteNode (p : Int → Bool) :
    ∀ (t : BTree) (v : Int), allT p t = true → allT p (deleteNode t v) = true := by
  intro t
  induction t with
  | nil => intro v _; rfl
  | node nv h s l r ihl ihr =>
    intro v ht
    simp only [allT, Bool.and_eq_true] at ht
    obtain ⟨⟨hpv, hl⟩, hr⟩ := ht
    unfold deleteNode
    by_cases h1 : v < nv
    · rw [if_pos h1]
      simp only [allT, Bool.and_eq_true]
      exact ⟨⟨hpv, ihl v hl⟩, hr⟩
    · rw [if_neg h1]
      by_cases h2 : v > nv
      · rw [if_pos h2]
        simp only [allT, Bool.and_eq_true]
        exact ⟨⟨hpv, hl⟩, ihr v hr⟩
      · rw [if_neg h2]
        cases l with
        | nil =>
          cases r with
          | nil => rfl
          | node rv rh rs rl rr => exact hr
        | node lv lh ls ll lr =>
          cases r with
          | nil => exact hl
          | node rv rh rs rl rr =>
            have hm := allT_minValD p (BTree.node rv rh rs rl rr) 0
              (by intro hc; exact BTree.noConfusion hc) hr
            have hdel := ihr (minValD (BTree.node rv rh rs rl rr) 0) hr
            simp only [allT, Bool.and_eq_true] at hl ⊢
            exact ⟨⟨hm, hl⟩, hdel⟩

theorem gt_del_min :
    ∀ (t : BTree) (d : Int), isBST t = true → t ≠ .nil →
      allT (fun x => decide (minValD t d < x)) (deleteNode t (minValD t d)) = true := by
  intro t
  induction t with
  | nil => intro d _ hne; exact absurd rfl hne
  | node nv h s l r ihl _ =>
    intro d hbst _
    simp only [isBST, Bool.and_eq_true] at hbst
    obtain ⟨⟨⟨hltl, hgtr⟩, hbl⟩, hbr⟩ := hbst
    show allT (fun x => decide (minValD l nv < x))
      (deleteNode (BTree.node nv h s l r) (minValD l nv)) = true
    cases l with
    | nil =>
      show allT (fun x => decide (nv < x))
        (deleteNode (BTree.node nv h s BTree.nil r) nv) = true
      unfold deleteNode
      rw [if_neg (by omega), if_neg (by omega)]
      cases r with
      | nil => rfl
      | node rv rh rs rl rr => exact hgtr
    | node lv lh ls ll lr =>
      have hmlt : minValD (BTree.node lv lh ls ll lr) nv < nv := by
        have := allT_minValD (fun x => decide (x < nv)) (BTree.node lv lh ls ll lr) nv
          (by intro hc; exact BTree.noConfusion hc) hltl
        simpa using this
      unfold deleteNode
      rw [if_pos hmlt]
      simp only [allT, Bool.and_eq_true]
      refine ⟨⟨?_, ?_⟩, ?_⟩
      · simpa using hmlt
      · exact ihl nv hbl (by intro hc; exact BTree.noConfusion hc)
      · refine allT_imp (fun x => decide (nv < x)) _ ?_ r hgtr
        intro x hx
        simp only [decide_eq_true_eq] at hx ⊢
        omega

theorem isBST_deleteNode : ∀ (t : BTree) (v : Int), isBST t = true →
    isBST (deleteNode t v) = true := by
  intro t
  induction t with
  | nil => intro v _; rfl
  | node nv h s l r ihl ihr =>
    intro v hbst
    simp only [isBST, Bool.and_eq_true] at hbst
    obtain ⟨⟨⟨hltl, hgtr⟩, hbl⟩, hbr⟩ := hbst
    unfold deleteNode
    by_cases h1 : v < nv
    · rw [if_pos h1]
      simp only [isBST, Bool.and_eq_true]
      exact ⟨⟨⟨allT_deleteNode _ l v hltl, hgtr⟩, ihl v hbl⟩, hbr⟩
    · rw [if_neg h1]
      by_cases h2 : v > nv
      · rw [if_pos h2]
        simp only [isBST, Bool.and_eq_true]
        exact ⟨⟨⟨hltl, allT_deleteNode _ r v hgtr⟩, hbl⟩, ihr v hbr⟩
      · rw [if_neg h2]
        cases l with
        | nil =>
          cases r with
          | nil => rfl
          | node rv rh rs rl rr => exact hbr
        | node lv lh ls ll lr =>
          cases r with
          | nil => exact hbl
          | node rv rh rs rl rr =>
            have hm_gt : nv < minValD (BTree.node rv rh rs rl rr) 0 := by
              have := allT_minValD (fun x => decide (nv < x))
                (BTree.node rv rh rs rl rr) 0 (by intro hc; exact BTree.noConfusion hc) hgtr
              simpa using this
            have hLlt : allT (fun x => decide (x < minValD (BTree.node rv rh rs rl rr) 0))
                (BTree.node lv lh ls ll lr) = true := by
              refine allT_imp (fun x => decide (x < nv)) _ ?_ _ hltl
              intro x hx
              simp only [decide_eq_true_eq] at hx ⊢
              omega
            have hgt_del := gt_del_min (BTree.node rv rh rs rl rr) 0 hbr
              (by intro hc; exact BTree.noConfusion hc)
            have hdel := ihr (minValD (BTree.node rv rh rs rl rr) 0) hbr
            simp only [isBST, Bool.and_eq_true] at hbl ⊢
            exact ⟨⟨⟨hLlt, hgt_del⟩, hbl⟩, hdel⟩

end AlgoViz
namespace AlgoViz

/-! The ten claims. -/

/-- C1: for every input, the final step of bubble sort's log is a
non-decreasing permutation of the input with every status sorted; the same
holds for selection sort on every non-empty input (amended: the source
selection sort throws on the empty array, see the counterexample); on
[3, 1, 2] bubble sort ends at [1, 2, 3] with all statuses sorted after
exactly 12 recorded steps. -/
theorem claim_C1_sorts_final (input : List Int) (hne : input ≠ []) :
    (∃ last, (bubbleSortSteps input).getLast? = some last ∧
      (last.map Item.value).Perm input ∧
      List.Sorted (· ≤ ·) (last.map Item.value) ∧
      ∀ it ∈ last, it.status = Status.sorted) ∧
    (∃ log last, selectionSortSteps input = some log ∧
      log.getLast? = some last ∧
      (last.map Item.value).Perm input ∧
      List.Sorted (· ≤ ·) (last.map Item.value) ∧
      ∀ it ∈ last, it.status = Status.sorted) ∧
    (bubbleSortSteps [3, 1, 2]).getLast? =
      some [⟨1, .sorted⟩, ⟨2, .sorted⟩, ⟨3, .sorted⟩] ∧
    (bubbleSortSteps [3, 1, 2]).length = 12 :=
  ⟨bubble_final input, selection_final input hne, by decide, by decide⟩

/-- C1 witness: the amended claim at the concrete input [5, 2]. -/
theorem claim_C1_witness :
    (∃ last, (bubbleSortSteps [5, 2]).getLast? = some last ∧
      (last.map Item.value).Perm [5, 2] ∧
      List.Sorted (· ≤ ·) (last.map Item.value) ∧
      ∀ it ∈ last, it.status = Status.sorted) ∧
    (∃ log last, selectionSortSteps [5, 2] = some log ∧
      log.getLast? = some last ∧
      (last.map Item.value).Perm [5, 2] ∧
      List.Sorted (· ≤ ·) (last.map Item.value) ∧
      ∀ it ∈ last, it.status = Status.sorted) ∧
    (bubbleSortSteps [3, 1, 2]).getLast? =
      some [⟨1, .sorted⟩, ⟨2, .sorted⟩, ⟨3, .sorted⟩] ∧
    (bubbleSortSteps [3, 1, 2]).length = 12 :=
  claim_C1_sorts_final [5, 2] (by decide)

/-- C1 counterexample: the source selection sort dereferences
copy[copy.length - 1] unconditionally after the loops, which throws on the
empty array, so no step log is produced there: the claim's universal
quantification over all finite inputs fails for selection sort. -/
theorem claim_C1_counterexample : selectionSortSteps ([] : List Int) = none := by
  decide

/-- C2: the bucket index used by insert and search is the polynomial hash
(the sum over i of charCode(key i) times i+1, mod bucketCount); a completed
insert places the key in bucket h(K) and an immediately following search
reports bucket h(K); key "age" (char codes 97, 103, 101) with bucketCount 8
hashes to 6. -/
theorem claim_C2_hash_placement (m : Nat) (st : HashState) (k : List Nat) (v : HVal)
    (st2 : HashState) (hm : 0 < m) (hblen : st.buckets.length = m)
    (hok : handleAddEntry m st k v = .ok st2) :
    hashFunction m k = (k.enum.map (fun p => p.2 * (p.1 + 1))).sum % m ∧
    (∃ b, st2.buckets[hashFunction m k]? = some b ∧
      b.any (fun e => e.key = k) = true) ∧
    (handleSearch m st2 k).2 = some (hashFunction m k) ∧
    hashFunction 8 [97, 103, 101] = 6 :=
  ⟨hashFunction_eq_sum_mod m k,
   (handleAddEntry_in_bucket m st k v st2 hm hblen hok).1,
   handleAddEntry_then_search m st k v st2 hm hblen hok,
   by decide⟩

/-- C2 witness: inserting the fresh key [120] into the initial 8-bucket
table and searching for it. -/
theorem claim_C2_witness :
    hashFunction 8 [120] =
      (([120] : List Nat).enum.map (fun p => p.2 * (p.1 + 1))).sum % 8 ∧
    (∃ b, (applyAddEntry 8 (resetHashTable 8) [120]
        (.num 1)).buckets[hashFunction 8 [120]]? = some b ∧
      b.any (fun e => e.key = [120]) = true) ∧
    (handleSearch 8 (applyAddEntry 8 (resetHashTable 8) [120] (.num 1)) [120]).2 =
      some (hashFunction 8 [120]) ∧
    hashFunction 8 [97, 103, 101] = 6 :=
  claim_C2_hash_placement 8 (resetHashTable 8) [120] (.num 1)
    (applyAddEntry 8 (resetHashTable 8) [120] (.num 1))
    (by decide) (by decide) (by decide)

/-- C3: deleting a value from a BST preserves the ordering invariant; on a
node with two children the deleted slot receives the in-order successor (the
leftmost value of the right subtree) and that successor is recursively
deleted from the right subtree; building from [50, 30, 70, 20, 40, 60, 80]
and deleting 50 leaves in-order [20, 30, 40, 60, 70, 80] with root value
60. -/
theorem claim_C3_delete_bst (t : BTree) (v : Int) (ht : isBST t = true) :
    isBST (deleteNode t v) = true ∧
    (∀ (nv : Int) (h : Nat) (s : TStatus) (lv rv : Int) (lh rh : Nat)
        (ls rs : TStatus) (ll lr rl rr : BTree),
      deleteNode (.node nv h s (.node lv lh ls ll lr) (.node rv rh rs rl rr)) nv =
        .node (minValD (.node rv rh rs rl rr) 0) h s (.node lv lh ls ll lr)
          (deleteNode (.node rv rh rs rl rr)
            (minValD (.node rv rh rs rl rr) 0))) ∧
    inorder (deleteNode (buildTree [50, 30, 70, 20, 40, 60, 80]) 50) =
      [20, 30, 40, 60, 70, 80] ∧
    rootVal (deleteNode (buildTree [50, 30, 70, 20, 40, 60, 80]) 50) = some 60 := by
  refine ⟨isBST_deleteNode t v ht, ?_, by decide, by decide⟩
  intro nv h s lv rv lh rh ls rs ll lr rl rr
  conv_lhs => rw [deleteNode]
  rw [if_neg (lt_irrefl nv), if_neg (lt_irrefl nv)]

/-- C3 witness: the claim at the tree built from [50, 30, 70, 20, 40, 60, 80]
with the deleted value 50. -/
theorem claim_C3_witness :
    isBST (deleteNode (buildTree [50, 30, 70, 20, 40, 60, 80]) 50) = true ∧
    (∀ (nv : Int) (h : Nat) (s : TStatus) (lv rv : Int) (lh rh : Nat)
        (ls rs : TStatus) (ll lr rl rr : BTree),
      deleteNode (.node nv h s (.node lv lh ls ll lr) (.node rv rh rs rl rr)) nv =
        .node (minValD (.node rv rh rs rl rr) 0) h s (.node lv lh ls ll lr)
          (deleteNode (.node rv rh rs rl rr)
            (minValD (.node rv rh rs rl rr) 0))) ∧
    inorder (deleteNode (buildTree [50, 30, 70, 20, 40, 60, 80]) 50) =
      [20, 30, 40, 60, 70, 80] ∧
    rootVal (deleteNode (buildTree [50, 30, 70, 20, 40, 60, 80]) 50) = some 60 :=
  claim_C3_delete_bst (buildTree [50, 30, 70, 20, 40, 60, 80]) 50 (by decide)

/-- C4: code bug in the doubly list's head insertion: the +1 renumbering
pass runs after the old head's prev was already set to the new node's final
index 0, so it is bumped to 1: prev(next(0)) = 1 instead of 0, and the
consistency invariant fails (it holds for the initial list and after tail
insertion). -/
theorem claim_C4_doubly_prev_bug :
    prevConsistent resetDoubly = true ∧
    prevConsistent (handleAddToHeadDoubly resetDoubly 5) = false ∧
    ((handleAddToHeadDoubly resetDoubly 5).nodes[1]?).map DNode.prev =
      some (some 1) ∧
    prevConsistent (handleAddToTailDoubly resetDoubly 5) = true := by
  decide

/-- C5: code bug in part_005: the first recorded step aliases the live item
objects (push of a spread array copies the array, not the items), so later
status mutations retroactively rewrite step 0: on [2, 1] it ends as two
swapping items instead of the pristine defaults; the part_002 variant deep
copies every snapshot and step 0 stays the pre-operation state. -/
theorem claim_C5_step0_aliasing :
    (bubbleSortSteps [2, 1]).head? = some [⟨2, .swapping⟩, ⟨1, .swapping⟩] ∧
    ¬ (bubbleSortSteps [2, 1]).head? = some [⟨2, .default⟩, ⟨1, .default⟩] ∧
    (bubbleSort2Steps [2, 1]).head? = some [⟨2, .default⟩, ⟨1, .default⟩] := by
  decide

/-- C6: code bug in the transport wiring: the step-backward button calls
onStep false, but the array visualizer passes stepVisualization, which takes
no direction and always advances: a backward step from currentStep 1 of a
three-step log reaches 2, and from 0 it reaches 1 instead of being a
no-op. -/
theorem claim_C6_backward_advances :
    (onStepCallback [] false
      (⟨1, false, false, [[], [], []], 2⟩ : VizState)).currentStep = 2 ∧
    (onStepCallback [] false
      (⟨0, false, false, [[], [], []], 2⟩ : VizState)).currentStep = 1 := by
  decide

/-- C7: inserting a key already present anywhere in the table is rejected as
a duplicate before any mutation: the handler returns the duplicate signal and
the component state (buckets, entry list and all statuses) is exactly the old
one. -/
theorem claim_C7_duplicate_rejected (m : Nat) (st : HashState) (k : List Nat)
    (v : HVal) (hk : k ≠ []) (hdup : st.entries.any (fun e => e.1 = k) = true) :
    handleAddEntry m st k v = .duplicate ∧ applyAddEntry m st k v = st :=
  handleAddEntry_dup m st k v hk hdup

/-- C7 witness: re-inserting the initial key "age" into the 8-bucket table. -/
theorem claim_C7_witness :
    handleAddEntry 8 (resetHashTable 8) [97, 103, 101] (.num 99) = .duplicate ∧
    applyAddEntry 8 (resetHashTable 8) [97, 103, 101] (.num 99) = resetHashTable 8 :=
  claim_C7_duplicate_rejected 8 (resetHashTable 8) [97, 103, 101] (.num 99)
    (by decide) (by decide)

/-- C8: collision bookkeeping: from a well-marked table (every bucket with
more than one entry carries only collision statuses), every completed insert
leaves the table well marked, and every completed remove leaves it well
marked with the key's bucket re-marked default when its size falls to at most
one; concretely with 8 buckets, "age" and "job" collide in bucket 6 of the
initial table (both collision) and removing "age" leaves "job" default. -/
theorem claim_C8_collision_bookkeeping (m : Nat) (st : HashState) (k : List Nat)
    (v : HVal) (hwm : wellMarked st = true) :
    (∀ st2, handleAddEntry m st k v = .ok st2 → wellMarked st2 = true) ∧
    (∀ st2, handleRemoveEntry m st k = .ok st2 → wellMarked st2 = true ∧
      ∀ b, st2.buckets[hashFunction m k]? = some b → b.length ≤ 1 →
        ∀ e ∈ b, e.status = .default) ∧
    hashFunction 8 [97, 103, 101] = hashFunction 8 [106, 111, 98] ∧
    wellMarked (resetHashTable 8) = true ∧
    ((resetHashTable 8).buckets.getD 6 []).length = 2 ∧
    ((resetHashTable 8).buckets.getD 6 []).all
      (fun e => e.status == .collision) = true ∧
    ((applyRemoveEntry 8 (resetHashTable 8) [97, 103, 101]).buckets.getD 6
      []).length = 1 ∧
    ((applyRemoveEntry 8 (resetHashTable 8) [97, 103, 101]).buckets.getD 6 []).all
      (fun e => e.status == .default) = true :=
  ⟨fun st2 hok => wellMarked_addEntry m st k v st2 hwm hok,
   fun st2 hok => handleRemoveEntry_bucket_default m st k st2 hwm hok,
   by decide, by decide, by decide, by decide, by decide, by decide⟩

/-- C8 witness: the claim at the initial 8-bucket table with key "age". -/
theorem claim_C8_witness :
    (∀ st2, handleAddEntry 8 (resetHashTable 8) [97, 103, 101] (.num 0) = .ok st2 →
      wellMarked st2 = true) ∧
    (∀ st2, handleRemoveEntry 8 (resetHashTable 8) [97, 103, 101] = .ok st2 →
      wellMarked st2 = true ∧
      ∀ b, st2.buckets[hashFunction 8 [97, 103, 101]]? = some b → b.length ≤ 1 →
        ∀ e ∈ b, e.status = .default) ∧
    hashFunction 8 [97, 103, 101] = hashFunction 8 [106, 111, 98] ∧
    wellMarked (resetHashTable 8) = true ∧
    ((resetHashTable 8).buckets.getD 6 []).length = 2 ∧
    ((resetHashTable 8).buckets.getD 6 []).all
      (fun e => e.status == .collision) = true ∧
    ((applyRemoveEntry 8 (resetHashTable 8) [97, 103, 101]).buckets.getD 6
      []).length = 1 ∧
    ((applyRemoveEntry 8 (resetHashTable 8) [97, 103, 101]).buckets.getD 6 []).all
      (fun e => e.status == .default) = true :=
  claim_C8_collision_bookkeeping 8 (resetHashTable 8) [97, 103, 101] (.num 0)
    (by decide)

/-- C9 (amended): a sort on a 0- or 1-element array raises no error, but the
log holds more than one step: part_005 bubble sort records three identical
steps on a singleton (the first aliased snapshot is retro-marked sorted) and
two empty steps on the empty array; the part_002 variant records two steps on
a singleton and two on the empty array; part_005 selection sort records two
steps on a singleton. -/
theorem claim_C9_small_logs (x : Int) :
    bubbleSortSteps [x] = [[⟨x, .sorted⟩], [⟨x, .sorted⟩], [⟨x, .sorted⟩]] ∧
    bubbleSortSteps ([] : List Int) = [[], []] ∧
    bubbleSort2Steps [x] = [[⟨x, .default⟩], [⟨x, .sorted⟩]] ∧
    bubbleSort2Steps ([] : List Int) = [[], []] ∧
    selectionSortSteps [x] = some [[⟨x, .sorted⟩], [⟨x, .sorted⟩]] :=
  ⟨rfl, rfl, rfl, rfl, rfl⟩

/-- C9 counterexample: a one-element array yields three steps under part_005
bubble sort and two under part_002, never exactly one. -/
theorem claim_C9_counterexample :
    (bubbleSortSteps [7]).length = 3 ∧ (bubbleSort2Steps [7]).length = 2 := by
  decide

/-- C10: the hash function is total, maps the empty key to 0, and for a
positive bucket count always lands in [0, bucketCount), so every bucket
access through it indexes an existing bucket. -/
theorem claim_C10_hash_range (m : Nat) (hm : 0 < m) :
    (∀ key : List Nat, hashFunction m key < m) ∧
    hashFunction m [] = 0 ∧
    (∀ (st : HashState) (key : List Nat), st.buckets.length = m →
      ∃ b, st.buckets[hashFunction m key]? = some b) := by
  refine ⟨fun key => hashFunction_lt m hm key, rfl, fun st key hblen => ?_⟩
  have hlt : hashFunction m key < st.buckets.length := by
    rw [hblen]
    exact hashFunction_lt m hm key
  exact ⟨st.buckets[hashFunction m key], List.getElem?_eq_getElem hlt⟩

/-- C10 witness: the claim at the component's bucket count 8. -/
theorem claim_C10_witness :
    (∀ key : List Nat, hashFunction 8 key < 8) ∧
    hashFunction 8 [] = 0 ∧
    (∀ (st : HashState) (key : List Nat), st.buckets.length = 8 →
      ∃ b, st.buckets[hashFunction 8 key]? = some b) :=
  claim_C10_hash_range 8 (by decide)

end AlgoViz
